import Mathlib

/-!
Shallow embedding of the hybrid T-code search and ranking pipeline
(`hybridSearch`, `executeAISearch` and its stages: semantic candidate
generation, GPT re-ranking, term boost, LLM judge, web-validation fallback,
MOLGA locale boost, feedback boost, and the TTL cache key scheme).

Strings are modelled as `List Char`; JavaScript `Map` objects as ordered
association lists (insertion order preserved, `set` on an existing key
updates in place); the stable JavaScript `Array.prototype.sort` as
`List.insertionSort`; JS numbers carrying scores as `ℚ` (and as `ℝ` for the
one logarithmic formula).  External collaborators (OpenAI completions, the
judge model, Brave web search, the Prisma-backed catalog, the feedback
store) are passed in as explicit inputs: a call's outcome (timeout, parse
failure, or a parsed payload) is a parameter of the embedding.
-/

namespace TCode

/-- Strings as character lists (JS strings are sequences of code units;
the pipeline only manipulates them char-by-char). -/
abbrev Str := List Char

def lowerS (s : Str) : Str := s.map Char.toLower

def upperS (s : Str) : Str := s.map Char.toUpper

def isWs (c : Char) : Bool := c.isWhitespace

/-- `String.prototype.trim`. -/
def trimS (s : Str) : Str := ((s.dropWhile isWs).reverse.dropWhile isWs).reverse

/-- Helper for `collapseWs`: the flag records whether the previous
character was whitespace (so only the first of a run emits a space). -/
def collapseWsAux : Bool → Str → Str
  | _, [] => []
  | prevWs, c :: rest =>
    if isWs c then
      if prevWs then collapseWsAux true rest else ' ' :: collapseWsAux true rest
    else c :: collapseWsAux false rest

/-- `.replace(/\s+/g, ' ')`: every maximal whitespace run becomes one space. -/
def collapseWs (s : Str) : Str := collapseWsAux false s

/-- Helper for `wordsS`: `cur` accumulates the current token reversed. -/
def wordsAux : Str → Option Str → List Str
  | [], none => []
  | [], some t => [t.reverse]
  | c :: rest, none =>
    if isWs c then wordsAux rest none else wordsAux rest (some [c])
  | c :: rest, some t =>
    if isWs c then t.reverse :: wordsAux rest none else wordsAux rest (some (c :: t))

/-- The non-empty tokens of `.split(/\s+/)` (empty tokens are dropped; at
every use site they are discarded anyway, by a length filter or by
comparison against a non-empty word). -/
def wordsS (s : Str) : List Str := wordsAux s none

/-- `pat` is a prefix of `s` (JS `startsWith`). -/
def strHasPrefix : Str → Str → Bool
  | [], _ => true
  | _ :: _, [] => false
  | a :: as, b :: bs => a == b && strHasPrefix as bs

/-- `s.includes(pat)` (JS substring containment). -/
def strHasInfix (pat : Str) : Str → Bool
  | [] => pat.isEmpty
  | c :: rest => strHasPrefix pat (c :: rest) || strHasInfix pat rest

/-- Case-insensitive equality (Prisma `mode: 'insensitive'`). -/
def ciEq (a b : Str) : Bool := lowerS a == lowerS b

/-- Lexicographic strict order on strings (Prisma `orderBy: asc`). -/
def strLtB : Str → Str → Bool
  | [], [] => false
  | [], _ :: _ => true
  | _ :: _, [] => false
  | a :: as, b :: bs => if a < b then true else if a == b then strLtB as bs else false

/-- JS `a || b` on nullable strings: `''` and `null` are falsy. -/
def jsOrStr (a b : Option Str) : Option Str :=
  match a with
  | some s => if s.isEmpty then b else some s
  | none => b

/-- `(x || '')` for a nullable string. -/
def jsOrEmpty (a : Option Str) : Str := (jsOrStr a (some [])).getD []

/- ## Data model -/

structure CatalogEntry where
  tcode : Str
  program : Option Str := none
  description : Option Str := none
  descriptionEnriched : Option Str := none
  module : Option Str := none
  isDeprecated : Bool := false
deriving DecidableEq

inductive MatchType
  | exactM | fuzzyM | fulltextM | semanticM
deriving DecidableEq

structure SearchResult where
  tcode : Str
  program : Option Str := none
  description : Option Str := none
  module : Option Str := none
  relevanceScore : ℚ
  matchType : MatchType
  isDeprecated : Bool := false
deriving DecidableEq

structure AISearchResult where
  tcode : Str
  description : Option Str := none
  module : Option Str := none
  explanation : Str
  confidence : ℚ
  aiGenerated : Bool := false
  source : Option Str := none
deriving DecidableEq

/- ## JS `Map` as an ordered association list -/

abbrev SMap (α : Type) := List (Str × α)

def mapHas (m : SMap α) (k : Str) : Bool := m.any (fun p => p.1 = k)

def mapGet? (m : SMap α) (k : Str) : Option α := (m.find? (fun p => p.1 = k)).map (·.2)

/-- `Map.prototype.set`: update in place if the key exists (insertion
order is preserved), else append. -/
def mapSet (m : SMap α) (k : Str) (v : α) : SMap α :=
  if mapHas m k then m.map (fun p => if p.1 = k then (k, v) else p)
  else m ++ [(k, v)]

/-- In-place mutation of the value stored at `k`. -/
def mapUpdate (m : SMap α) (k : Str) (f : α → α) : SMap α :=
  m.map (fun p => if p.1 = k then (p.1, f p.2) else p)

def mapValues (m : SMap α) : List α := m.map (·.2)

/-- `for (const r of rs) m.set(key(r), r)` — later entries overwrite. -/
def setSlots (init : SMap α) (key : α → Str) (rs : List α) : SMap α :=
  rs.foldl (fun m r => mapSet m (key r) r) init

/-- `for (const r of rs) if (!m.has(key(r))) m.set(key(r), r)` — existing
slots win. -/
def fillSlots (init : SMap α) (key : α → Str) (rs : List α) : SMap α :=
  rs.foldl (fun m r => if mapHas m (key r) then m else mapSet m (key r) r) init

/- ## Stable sort (JS `Array.prototype.sort` with a score comparator) -/

def confGe (a b : AISearchResult) : Prop := b.confidence ≤ a.confidence

instance : DecidableRel confGe := fun a b => inferInstanceAs (Decidable (_ ≤ _))

instance : IsTotal AISearchResult confGe := ⟨fun a b => le_total b.confidence a.confidence⟩

instance : IsTrans AISearchResult confGe := ⟨fun _ _ _ hab hbc => le_trans hbc hab⟩

/-- `results.sort((a, b) => b.confidence - a.confidence)`; JS sort is
stable, and a stable sort w.r.t. a total preorder is insertion sort. -/
def sortByConfDesc (l : List AISearchResult) : List AISearchResult := l.insertionSort confGe

def relevGe (a b : SearchResult) : Prop := b.relevanceScore ≤ a.relevanceScore

instance : DecidableRel relevGe := fun a b => inferInstanceAs (Decidable (_ ≤ _))

instance : IsTotal SearchResult relevGe := ⟨fun a b => le_total b.relevanceScore a.relevanceScore⟩

instance : IsTrans SearchResult relevGe := ⟨fun _ _ _ hab hbc => le_trans hbc hab⟩

def sortByRelevDesc (l : List SearchResult) : List SearchResult := l.insertionSort relevGe

def entryTcodeLe (a b : CatalogEntry) : Prop := strLtB b.tcode a.tcode = false

instance : DecidableRel entryTcodeLe := fun a b => inferInstanceAs (Decidable (_ = false))

/-- Prisma `orderBy: { tcode: 'asc' }` on catalog rows. -/
def sortByTcodeAsc (l : List CatalogEntry) : List CatalogEntry := l.insertionSort entryTcodeLe

/- ## cache.ts -/

/-- Key normalization in `generateCacheKey`:
`query.toLowerCase().trim().replace(/\s+/g, ' ')`. -/
def normalizeQuery (q : Str) : Str := collapseWs (trimS (lowerS q))

/-- `generateCacheKey(prefix, query)` returns `` `${prefix}:${normalized}` ``. -/
def generateCacheKey (ns : Str) (q : Str) : Str := ns ++ (':' :: normalizeQuery q)

/- ## feedback-ranking.ts -/

/-- `calculateBoostFactor(upvotes, downvotes)`: 1.0 on zero net votes, else
`1 + sign(net) · log10(1 + |net|) · 0.15` clamped to `[0.7, 1.5]`. -/
noncomputable def calculateBoostFactor (upvotes downvotes : ℕ) : ℝ :=
  let netScore : ℤ := (upvotes : ℤ) - (downvotes : ℤ)
  if netScore = 0 then 1
  else
    let scaledScore : ℝ :=
      (Int.sign netScore : ℝ) * Real.logb 10 (1 + (netScore.natAbs : ℝ)) * 0.15
    max 0.7 (min 1.5 (1 + scaledScore))

/-- `applyFeedbackBoostToAI`: multiply each result's confidence by its
boost factor, capped at 0.99; a neutral factor of 1.0 is a no-op.  The
feedback store is modelled as the total function `boostOf` (the source
fills every requested tcode with a neutral default on a miss or error). -/
def applyFeedbackBoostToAI (boostOf : Str → ℚ) (results : List AISearchResult) :
    List AISearchResult :=
  if results.isEmpty then results
  else
    results.map (fun r =>
      let f := boostOf r.tcode
      if f ≠ 1 then { r with confidence := min 0.99 (r.confidence * f) } else r)

/- ## molga-lookup.ts -/

structure MolgaEntry where
  molga : ℕ
  isoCode : Str
  country : Str
  aliases : List Str
deriving DecidableEq

structure MolgaMatch where
  molga : ℕ
  country : Str
  pattern : Str
  matchedTerm : Str
deriving DecidableEq

/-- `` `M${molga.toString().padStart(2, '0')}` ``. -/
def molgaPatternOf (n : ℕ) : Str :=
  'M' :: (if n < 10 then '0' :: Nat.toDigits 10 n else Nat.toDigits 10 n)

/-- One iteration of the detection loop in `detectCountryInQuery`:
exact-word ISO-code match, then substring country-name match, then first
matching alias. -/
def detectEntry (queryLower : Str) (queryWords : List Str) (e : MolgaEntry) :
    Option MolgaMatch :=
  if queryWords.contains (lowerS e.isoCode) then
    some ⟨e.molga, e.country, molgaPatternOf e.molga, e.isoCode⟩
  else if strHasInfix (lowerS e.country) queryLower then
    some ⟨e.molga, e.country, molgaPatternOf e.molga, e.country⟩
  else
    (e.aliases.find? (fun a => strHasInfix (lowerS a) queryLower)).map
      (fun a => ⟨e.molga, e.country, molgaPatternOf e.molga, a⟩)

/-- `detectCountryInQuery`: all matching countries, in reference-table order. -/
def detectCountryInQuery (molgaData : List MolgaEntry) (query : Str) : List MolgaMatch :=
  let queryLower := lowerS query
  let queryWords := wordsS queryLower
  molgaData.filterMap (detectEntry queryLower queryWords)

def isDigitC (c : Char) : Bool := c.isDigit

def digitVal (c : Char) : ℕ := c.toNat - 48

/-- Anchored match of `/_M(\d{1,2})_/` (greedy with backtracking, as a JS
regex engine evaluates it).  The input is pre-uppercased, modelling `/i`. -/
def p1At : Str → Option ℕ
  | '_' :: 'M' :: d1 :: tail =>
    if isDigitC d1 then
      match tail with
      | d2 :: tail2 =>
        if isDigitC d2 then
          match tail2 with
          | '_' :: _ => some (10 * digitVal d1 + digitVal d2)
          | _ => none
        else
          match tail with
          | '_' :: _ => some (digitVal d1)
          | _ => none
      | [] => none
    else none
  | _ => none

def scanP1 : Str → Option ℕ
  | [] => none
  | c :: rest =>
    match p1At (c :: rest) with
    | some n => some n
    | none => scanP1 rest

/-- Anchored match of `/_M(\d{1,2})$/`. -/
def p2At : Str → Option ℕ
  | ['_', 'M', d1] => if isDigitC d1 then some (digitVal d1) else none
  | ['_', 'M', d1, d2] =>
    if isDigitC d1 && isDigitC d2 then some (10 * digitVal d1 + digitVal d2) else none
  | _ => none

def scanP2 : Str → Option ℕ
  | [] => none
  | c :: rest =>
    match p2At (c :: rest) with
    | some n => some n
    | none => scanP2 rest

/-- Anchored match of `/^M(\d{1,2})_/` (start anchor: no scanning). -/
def p3At : Str → Option ℕ
  | 'M' :: d1 :: tail =>
    if isDigitC d1 then
      match tail with
      | d2 :: tail2 =>
        if isDigitC d2 then
          match tail2 with
          | '_' :: _ => some (10 * digitVal d1 + digitVal d2)
          | _ => none
        else
          match tail with
          | '_' :: _ => some (digitVal d1)
          | _ => none
      | [] => none
    else none
  | _ => none

/-- The lookahead `(?=[A-Z_]|$)` (on an uppercased string). -/
def laOK : Str → Bool
  | [] => true
  | c :: _ => c.isAlpha || c == '_'

/-- Anchored match of `/M(\d{1,2})(?=[A-Z_]|$)/`.  When the greedy
two-digit alternative fails its lookahead, the one-digit backtrack looks
ahead at a digit and fails too. -/
def p4At : Str → Option ℕ
  | 'M' :: d1 :: tail =>
    if isDigitC d1 then
      match tail with
      | d2 :: tail2 =>
        if isDigitC d2 then
          if laOK tail2 then some (10 * digitVal d1 + digitVal d2) else none
        else
          if laOK tail then some (digitVal d1) else none
      | [] => some (digitVal d1)
    else none
  | _ => none

def scanP4 : Str → Option ℕ
  | [] => none
  | c :: rest =>
    match p4At (c :: rest) with
    | some n => some n
    | none => scanP4 rest

/-- `extractMolgaFromTcode`: try the four positional patterns in order and
return the parsed 1–2 digit MOLGA number of the first match. -/
def extractMolgaFromTcode (tcode : Str) : Option ℕ :=
  let u := upperS tcode
  match scanP1 u with
  | some n => some n
  | none =>
    match scanP2 u with
    | some n => some n
    | none =>
      match p3At u with
      | some n => some n
      | none => scanP4 u

/-- The generic element shape `applyMolgaBoost` operates on:
`T extends { tcode; confidence?; relevanceScore? }`. -/
structure Boostable where
  tcode : Str
  confidence : Option ℚ := none
  relevanceScore : Option ℚ := none
deriving DecidableEq

/-- `applyMolgaBoost`: detect a country in the query; with an active MOLGA,
a matching embedded pattern multiplies confidence by 1.5 (capped 0.99) and
relevanceScore by 1.5 (capped 1.0); a different embedded pattern halves
both; no embedded pattern leaves the candidate untouched. -/
def applyMolgaBoost (molgaData : List MolgaEntry) (results : List Boostable) (query : Str) :
    List Boostable × Option MolgaMatch :=
  if results.isEmpty then (results, none)
  else
    match detectCountryInQuery molgaData query with
    | [] => (results, none)
    | molgaMatch :: _ =>
      (results.map (fun r =>
        match extractMolgaFromTcode r.tcode with
        | some tcodeMolga =>
          if tcodeMolga = molgaMatch.molga then
            { r with
                confidence := r.confidence.map (fun c => min 0.99 (c * 1.5)),
                relevanceScore := r.relevanceScore.map (fun s => min 1 (s * 1.5)) }
          else
            { r with
                confidence := r.confidence.map (fun c => c * 0.5),
                relevanceScore := r.relevanceScore.map (fun s => s * 0.5) }
        | none => r), some molgaMatch)

/-- `applyMolgaBoost` instantiated at `AISearchResult` (confidence present,
no relevanceScore), as called from `executeAISearch`. -/
def applyMolgaBoostAI (molgaData : List MolgaEntry) (results : List AISearchResult)
    (query : Str) : List AISearchResult × Option MolgaMatch :=
  if results.isEmpty then (results, none)
  else
    match detectCountryInQuery molgaData query with
    | [] => (results, none)
    | molgaMatch :: _ =>
      (results.map (fun r =>
        match extractMolgaFromTcode r.tcode with
        | some tcodeMolga =>
          if tcodeMolga = molgaMatch.molga then
            { r with confidence := min 0.99 (r.confidence * 1.5) }
          else
            { r with confidence := r.confidence * 0.5 }
        | none => r), some molgaMatch)

/- ## web-search.ts -/

def filterWords : List Str :=
  (["SAP", "RFC", "BAPI", "THE", "FOR", "AND", "WITH", "THIS", "THAT",
    "FROM", "INTO", "USING", "USED", "WHEN", "WHERE", "WHICH", "WHAT",
    "HOW", "WHY", "CAN", "WILL", "ALL", "ANY", "NOT", "BUT", "ARE",
    "WAS", "WERE", "BEEN", "HAVE", "HAS", "HAD", "DOES", "DID", "GET",
    "USE", "YOU", "YOUR", "NEW", "OLD", "SET", "RUN", "CODE", "DATA",
    "TYPE", "NAME", "USER", "STEP", "MENU", "LIST", "VIEW", "EDIT",
    "SAVE", "DELETE", "CREATE", "UPDATE", "DISPLAY", "CHANGE", "ENTER",
    "SELECT", "OPTION", "TABLE", "FIELD", "VALUE", "TEXT", "LINE",
    "ITEM", "NUMBER", "DATE", "TIME", "STANDARD", "CUSTOM", "REPORT",
    "PROGRAM", "FUNCTION", "MODULE", "OBJECT", "CLASS", "METHOD",
    "INTERFACE", "TRANSACTION", "SCREEN", "DIALOG", "BATCH", "PROCESS"]).map String.data

/-- JS word character (`\w`), the basis of the `\b` assertions. -/
def wordB (c : Char) : Bool := c.isAlpha || c.isDigit || c == '_'

/-- The character class `[A-Z0-9_\/]` of the T-code pattern (no `/i`). -/
def tcodeBodyChar (c : Char) : Bool := c.isUpper || c.isDigit || c == '_' || c == '/'

/-- Greedy-with-backtracking body length for `[A-Z0-9_\/]{1,19}\b` given the
characters after the leading `[A-Z]`: the largest `j ∈ [1, 19]` inside the
run of body characters whose end satisfies the word-boundary assertion. -/
def tcodeMatchLen (rest : Str) : Option ℕ :=
  let run := (rest.takeWhile tcodeBodyChar).take 19
  (List.range run.length).reverse.findSome? (fun jm =>
    let j := jm + 1
    let lastC := run.getD (j - 1) 'A'
    let boundary :=
      match (rest.drop j).head? with
      | none => wordB lastC
      | some n => wordB lastC != wordB n
    if boundary then some j else none)

def boundaryBefore : Option Char → Bool
  | none => true
  | some p => !wordB p

/-- Fuelled worker for `tcodeScan` (the fuel, initially the text length,
dominates the number of characters left, making the recursion structural
and kernel-reducible). -/
def tcodeScanF : ℕ → Option Char → Str → List Str
  | 0, _, _ => []
  | _ + 1, _, [] => []
  | fuel + 1, prev, c :: rest =>
    if c.isUpper && boundaryBefore prev then
      match tcodeMatchLen rest with
      | some j =>
        (c :: rest.take j) :: tcodeScanF fuel (some ((rest.take j).getLastD c)) (rest.drop j)
      | none => tcodeScanF fuel (some c) rest
    else tcodeScanF fuel (some c) rest

/-- `text.match(/\b([A-Z][A-Z0-9_\/]{1,19})\b/g)`: all matches, scanning
left to right and resuming after each match. -/
def tcodeScan (prev : Option Char) (s : Str) : List Str := tcodeScanF s.length prev s

/-- `extractTCodes`: matched tokens, uppercased, length ≥ 2, not a filtered
common word, deduplicated keeping the first occurrence (a JS `Set`
preserves insertion order). -/
def extractTCodes (text : Str) : List Str :=
  (tcodeScan none text).foldl
    (fun acc m =>
      let upper := upperS m
      if 2 ≤ upper.length && !(filterWords.contains upper) && !(acc.contains upper) then
        acc ++ [upper]
      else acc) []

def webExplanationText : Str :=
  "Found via web search - commonly mentioned in SAP documentation and forums.".data

def srcWeb : Str := "web".data

/-- `validateAndFetchTCodes`: keep extracted tokens that name a
non-deprecated catalog entry (Prisma `in` is case-sensitive), at most 10,
each given the fixed web-validated confidence 0.75. -/
def validateAndFetchTCodes (catalog : List CatalogEntry) (tcodes : List Str) :
    List AISearchResult :=
  if tcodes.isEmpty then []
  else
    ((catalog.filter (fun e => tcodes.contains e.tcode && !e.isDeprecated)).take 10).map
      (fun e =>
        { tcode := e.tcode, description := e.description, module := e.module,
          explanation := webExplanationText, confidence := 0.75, source := some srcWeb })

/-- `enhanceWithWebSearch`.  `webContent` is the outcome of the external
Brave call (empty when the key is missing, the call times out, errors, or
returns nothing — all falsy); the query only shapes that external request.
Web results are inserted into the merge map first and existing results do
not overwrite them. -/
def enhanceWithWebSearch (catalog : List CatalogEntry) (webContent : Str)
    (existingResults : List AISearchResult) (confidenceThreshold : ℚ) :
    List AISearchResult × Bool :=
  let topConfidence := ((existingResults.head?).map (·.confidence)).getD 0
  if confidenceThreshold ≤ topConfidence then (existingResults, false)
  else if webContent.isEmpty then (existingResults, false)
  else
    let extracted := extractTCodes webContent
    let webResults := validateAndFetchTCodes catalog extracted
    if webResults.isEmpty then (existingResults, false)
    else
      let m0 := setSlots [] AISearchResult.tcode webResults
      let m1 := fillSlots m0 AISearchResult.tcode existingResults
      (sortByConfDesc (mapValues m1), true)

/- ## llm-judge.ts -/

structure JudgeVerdict where
  tcode : Str
  isExplanationAccurate : Bool := true
  isConfidenceReasonable : Bool := true
  correctedExplanation : Option Str := none
  correctedConfidence : Option ℚ := none
  reasoning : Str := []
deriving DecidableEq

/-- `new Map(judgments.map(j => [j.tcode.toUpperCase(), j]))`: on duplicate
keys the later verdict wins. -/
def judgmentMapOf (judgments : List JudgeVerdict) : SMap JudgeVerdict :=
  judgments.foldl (fun m j => mapSet m (upperS j.tcode) j) []

/-- `applyJudgments`: corrections replace explanation/confidence
field-by-field; a `null` corrected field (`??`) keeps the original. -/
def applyJudgments (results : List AISearchResult) (judgments : List JudgeVerdict) :
    List AISearchResult :=
  let judgmentMap := judgmentMapOf judgments
  results.map (fun result =>
    match mapGet? judgmentMap (upperS result.tcode) with
    | none => result
    | some judgment =>
      { result with
          explanation := judgment.correctedExplanation.getD result.explanation,
          confidence := judgment.correctedConfidence.getD result.confidence })

/-- `validateSearchResults`.  `judgeOutcome = none` models every failure
path (judge call timed out, response missing or unparsable, judgments not
an array — all thrown and caught, returning the uncorrected results). -/
def validateSearchResults (judgeEnabled : Bool) (results : List AISearchResult)
    (judgeOutcome : Option (List JudgeVerdict)) : List AISearchResult :=
  if !judgeEnabled then results
  else if results.isEmpty then results
  else
    match judgeOutcome with
    | none => results
    | some judgments => applyJudgments results judgments

/- ## ai-fallback.ts -/

structure GeneratedTCode where
  tcode : Str
  description : Option Str := none
  module : Option Str := none
  explanation : Str := []
  confidence : ℚ
deriving DecidableEq

structure ValidationResult where
  tcode : Str
  isValid : Bool := true
  correctedDescription : Option Str := none
  validationNote : Option Str := none
  adjustedConfidence : ℚ := 0
deriving DecidableEq

def srcAiGenerated : Str := "ai-generated".data

/-- One loop iteration of `generateAIFallbackSuggestions`: skip suggestions
the validator marked invalid; cap confidence at 0.6 (validated) or at
`min(confidence·0.8, 0.5)` (unvalidated); append the validation note when
present and non-empty (truthiness). -/
def fallbackResultOf (s : GeneratedTCode) (v? : Option ValidationResult) :
    Option AISearchResult :=
  match v? with
  | some v =>
    if !v.isValid then none
    else
      some
        { tcode := upperS s.tcode,
          description := jsOrStr v.correctedDescription s.description,
          module := jsOrStr (s.module.map upperS) none,
          explanation :=
            match v.validationNote with
            | some note =>
              if note.isEmpty then s.explanation
              else s.explanation ++ (' ' :: '(' :: (note ++ [')']))
            | none => s.explanation,
          confidence := min v.adjustedConfidence 0.6,
          aiGenerated := true, source := some srcAiGenerated }
  | none =>
      some
        { tcode := upperS s.tcode,
          description := jsOrStr none s.description,
          module := jsOrStr (s.module.map upperS) none,
          explanation := s.explanation,
          confidence := min (s.confidence * 0.8) 0.5,
          aiGenerated := true, source := some srcAiGenerated }

/-- `generateAIFallbackSuggestions`.  `suggestions` and `validations` are
the outcomes of the two raced model calls (empty on timeout, error, or
missing content); the internal result cache is modelled as transparent (a
hit returns a list this same function computed earlier). -/
def generateAIFallbackSuggestions (openaiKey : Bool) (suggestions : List GeneratedTCode)
    (validations : List ValidationResult) (limit : ℕ) : List AISearchResult :=
  if !openaiKey then []
  else if suggestions.isEmpty then []
  else
    let results := suggestions.filterMap (fun s =>
      fallbackResultOf s (validations.find? (fun v => upperS v.tcode == upperS s.tcode)))
    (sortByConfDesc results).take limit

/- ## semantic-search.ts -/

/-- A row of the vector-similarity query (ordered by ascending cosine
distance by the store). -/
structure SemRow where
  entry : CatalogEntry
  similarity : ℚ
deriving DecidableEq

/-- `executeSemanticSearch` (no modules filter, `includeDeprecated = false`,
as called from `executeAISearch`).  `rows` is the store's answer, in store
order; a missing API key, embedding failure or store error all yield `[]`
(modelled by an empty `rows`).  Similarity is clamped into [0, 1]. -/
def executeSemanticSearch (openaiKey : Bool) (rows : List SemRow) (limit : ℕ) :
    List SearchResult :=
  if !openaiKey then []
  else
    ((rows.filter (fun r => !r.entry.isDeprecated)).take limit).map (fun r =>
      { tcode := r.entry.tcode, program := r.entry.program,
        description := r.entry.description, module := r.entry.module,
        relevanceScore := max 0 (min 1 r.similarity),
        matchType := MatchType.semanticM, isDeprecated := r.entry.isDeprecated })

/- ## ai-search.ts (the full pipeline version with judge, web fallback,
MOLGA boost and feedback boost) -/

def defaultSimilarityExplanation : Str :=
  "Matches your search based on description similarity.".data

def defaultCriteriaExplanation : Str := "Matches your search criteria.".data

def apiKeyErrorText : Str := "OpenAI API key not configured".data

/-- `createDefaultResults`: the deterministic re-rank fallback. -/
def createDefaultResults (candidates : List SearchResult) : List AISearchResult :=
  candidates.map (fun c =>
    { tcode := c.tcode, description := c.description, module := c.module,
      explanation := defaultSimilarityExplanation, confidence := c.relevanceScore })

/-- One parsed item of the GPT ranking response
`{"results":[{"tcode","explanation","confidence"}]}`.  The explanation may
be absent or empty (both falsy under `||`); the confidence may be absent
(`??` then falls back). -/
structure RankItem where
  tcode : Str
  explanation : Str := []
  confidence : Option ℚ := none
deriving DecidableEq

/-- Outcome of the raced GPT call: `none` = timeout or transport error
(content null); `some none` = content present but `JSON.parse` threw;
`some (some items)` = parsed successfully. -/
abbrev GptOutcome := Option (Option (List RankItem))

/-- The re-ranking stage of `executeAISearch`: on timeout or parse failure
fall back to `createDefaultResults`; on success map every candidate,
looking its verdict up case-insensitively, with per-field fallbacks. -/
def rerankWithGPT (candidates : List SearchResult) (gpt : GptOutcome) :
    List AISearchResult :=
  match gpt with
  | none => createDefaultResults candidates
  | some none => createDefaultResults candidates
  | some (some items) =>
    candidates.map (fun candidate =>
      let found := items.find? (fun r => upperS r.tcode == upperS candidate.tcode)
      { tcode := candidate.tcode, description := candidate.description,
        module := candidate.module,
        explanation :=
          match found with
          | some r => if r.explanation.isEmpty then defaultCriteriaExplanation else r.explanation
          | none => defaultCriteriaExplanation,
        confidence :=
          match found with
          | some r => r.confidence.getD candidate.relevanceScore
          | none => candidate.relevanceScore })

/-- The term-matching boost: +0.05 per query term of length > 2 appearing
in the description or tcode (case-insensitive), total capped at 0.15;
the boosted confidence is capped at 1. -/
def applyTermBoost (query : Str) (results : List AISearchResult) : List AISearchResult :=
  let queryTerms := (wordsS (lowerS query)).filter (fun t => 2 < t.length)
  results.map (fun r =>
    let descLower := lowerS (jsOrEmpty r.description)
    let tcodeLower := lowerS r.tcode
    let raw := queryTerms.foldl
      (fun acc term =>
        if strHasInfix term descLower || strHasInfix term tcodeLower then acc + 0.05
        else acc) (0 : ℚ)
    let termBoost := min raw 0.15
    { r with confidence := min 1 (r.confidence + termBoost) })

def webFallbackThreshold : ℚ := 0.6

/-- The fusion step: expanded-query candidates take priority, direct
candidates fill slots whose tcode is still free. -/
def fuseCandidates (expandedCandidates directCandidates : List SearchResult) :
    List SearchResult :=
  let m0 := setSlots [] SearchResult.tcode expandedCandidates
  let m1 := fillSlots m0 SearchResult.tcode directCandidates
  mapValues m1

/-- The external world of one `executeAISearch` call.  Query expansion
always resolves to a string (`expandedQuery`, the query itself on timeout
or error); the two semantic searches resolve to store rows; the GPT, judge
and web calls resolve to their outcomes; the feedback store resolves to a
total boost-factor map.  `cacheHit` is the result-cache read (`none` on a
miss or read error). -/
structure PipelineEnv where
  openaiKey : Bool := true
  cacheHit : Option (List AISearchResult) := none
  expandedQuery : Str := []
  directRows : List SemRow := []
  expandedRows : List SemRow := []
  fallbackSuggestions : List GeneratedTCode := []
  fallbackValidations : List ValidationResult := []
  gpt : GptOutcome := none
  judgeEnabled : Bool := true
  judge : Option (List JudgeVerdict) := none
  webContent : Str := []
  catalog : List CatalogEntry := []
  molgaData : List MolgaEntry := []
  boostOf : Str → ℚ := fun _ => 1

/-- `executeAISearch(query, limit)`: throw without an API key; serve a
sorted cache hit; else fuse semantic candidates (capped at `2·limit`),
fall back to AI suggestions when empty, otherwise re-rank, term-boost,
sort, judge, re-sort, web-enhance (re-sorting only if used), MOLGA-boost,
sort, feedback-boost, sort.  The country-context detection before the GPT
call only shapes the external prompt and is not modelled. -/
def executeAISearch (env : PipelineEnv) (query : Str) (limit : ℕ) :
    Except Str (List AISearchResult × Bool) :=
  if !env.openaiKey then .error apiKeyErrorText
  else
    match env.cacheHit with
    | some cached => .ok (sortByConfDesc cached, true)
    | none =>
      let directCandidates := executeSemanticSearch env.openaiKey env.directRows limit
      let expandedCandidates :=
        if env.expandedQuery ≠ query then
          executeSemanticSearch env.openaiKey env.expandedRows limit
        else []
      let candidates := (fuseCandidates expandedCandidates directCandidates).take (limit * 2)
      if candidates.isEmpty then
        let fallbackResults :=
          generateAIFallbackSuggestions env.openaiKey env.fallbackSuggestions
            env.fallbackValidations limit
        .ok (fallbackResults, false)
      else
        let results0 := rerankWithGPT candidates env.gpt
        let results1 := applyTermBoost query results0
        let results2 := sortByConfDesc results1
        let results3 := validateSearchResults env.judgeEnabled results2 env.judge
        let results4 := sortByConfDesc results3
        let enhanced := enhanceWithWebSearch env.catalog env.webContent results4 webFallbackThreshold
        let results5 := if enhanced.2 then sortByConfDesc enhanced.1 else enhanced.1
        let results6 := (applyMolgaBoostAI env.molgaData results5 query).1
        let results7 := sortByConfDesc results6
        let results8 := applyFeedbackBoostToAI env.boostOf results7
        let results9 := sortByConfDesc results8
        .ok (results9, false)

/- ## app/api/v1/search/ai/route.ts -/

inductive RouteResponse
  | ok (results : List AISearchResult) (cached : Bool)
  | serverError (msg : Str)
deriving DecidableEq

/-- The POST handler after input validation: a thrown search error is
caught and surfaced as an explicit 500 response (`AI search failed: …`),
never as an unhandled exception. -/
def postSearchAI (env : PipelineEnv) (query : Str) (limit : ℕ) : RouteResponse :=
  match executeAISearch env query limit with
  | .ok (rs, c) => .ok rs c
  | .error e => .serverError e

/- ## search.ts (hybridSearch and its three strategies) -/

def moduleOK (modules : Option (List Str)) (e : CatalogEntry) : Bool :=
  match modules with
  | none => true
  | some ms =>
    match e.module with
    | some m => ms.contains m
    | none => false

def deprecatedOK (includeDeprecated : Bool) (e : CatalogEntry) : Bool :=
  includeDeprecated || !e.isDeprecated

/-- `executeExactSearch`: case-insensitive equality on tcode, score 1.0. -/
def executeExactSearch (catalog : List CatalogEntry) (query : Str)
    (modules : Option (List Str)) (includeDeprecated : Bool) : List SearchResult :=
  let upperQuery := upperS query
  ((catalog.filter (fun e =>
      ciEq e.tcode upperQuery && moduleOK modules e && deprecatedOK includeDeprecated e)).take 5).map
    (fun e =>
      { tcode := e.tcode, program := e.program,
        description := jsOrStr e.description e.descriptionEnriched, module := e.module,
        relevanceScore := 1, matchType := MatchType.exactM, isDeprecated := e.isDeprecated })

/-- The fuzzy similarity formula: 1.0 exact, 0.9 minus 0.02 per extra
character for prefixes, 0.7 minus the same penalty for substrings,
floored at 0.1. -/
def fuzzyScore (tcodeUpper upperQuery : Str) : ℚ :=
  let score : ℚ :=
    if tcodeUpper == upperQuery then 1
    else if strHasPrefix upperQuery tcodeUpper then
      0.9 - ((tcodeUpper.length - upperQuery.length : ℕ) : ℚ) * 0.02
    else if strHasInfix upperQuery tcodeUpper then
      0.7 - ((tcodeUpper.length - upperQuery.length : ℕ) : ℚ) * 0.02
    else 0.5
  max 0.1 score

/-- `executeFuzzySearch`: case-insensitive prefix-or-substring match on
tcode, first 20 rows in tcode order. -/
def executeFuzzySearch (catalog : List CatalogEntry) (query : Str)
    (modules : Option (List Str)) (includeDeprecated : Bool) : List SearchResult :=
  let upperQuery := upperS query
  let filtered := catalog.filter (fun e =>
    (strHasPrefix (lowerS upperQuery) (lowerS e.tcode)
        || strHasInfix (lowerS upperQuery) (lowerS e.tcode))
      && moduleOK modules e && deprecatedOK includeDeprecated e)
  ((sortByTcodeAsc filtered).take 20).map (fun e =>
    { tcode := e.tcode, program := e.program,
      description := jsOrStr e.description e.descriptionEnriched, module := e.module,
      relevanceScore := fuzzyScore (upperS e.tcode) upperQuery,
      matchType := MatchType.fuzzyM, isDeprecated := e.isDeprecated })

/-- `executeFullTextSearch`: every query word of length > 2 must occur in
the description, enriched description or tcode; the score is the matched
fraction times 0.8, floored at 0.1. -/
def executeFullTextSearch (catalog : List CatalogEntry) (query : Str)
    (modules : Option (List Str)) (includeDeprecated : Bool) : List SearchResult :=
  let words := ((wordsS query).filter (fun w => 2 < w.length)).map lowerS
  if words.isEmpty then []
  else
    let wordHits := fun (e : CatalogEntry) (w : Str) =>
      (match e.description with
       | some d => strHasInfix w (lowerS d)
       | none => false)
      || (match e.descriptionEnriched with
          | some d => strHasInfix w (lowerS d)
          | none => false)
      || strHasInfix w (lowerS e.tcode)
    ((catalog.filter (fun e =>
        words.all (wordHits e) && moduleOK modules e
          && deprecatedOK includeDeprecated e)).take 30).map
      (fun e =>
        let text := lowerS
          (e.tcode ++ (' ' :: jsOrEmpty e.description) ++ (' ' :: jsOrEmpty e.descriptionEnriched))
        let matched := words.filter (fun w => strHasInfix w text)
        { tcode := e.tcode, program := e.program,
          description := jsOrStr e.description e.descriptionEnriched, module := e.module,
          relevanceScore := max 0.1 (((matched.length : ℚ) / (words.length : ℚ)) * 0.8),
          matchType := MatchType.fulltextM, isDeprecated := e.isDeprecated })

/-- One fuzzy-loop iteration of the `hybridSearch` merge: a fuzzy result
takes a free slot, and replaces an occupied one only on a strictly higher
score. -/
def fuzzyMergeStep (m : SMap SearchResult) (r : SearchResult) : SMap SearchResult :=
  if mapHas m r.tcode then
    match mapGet? m r.tcode with
    | some existing =>
      if existing.relevanceScore < r.relevanceScore then mapSet m r.tcode r else m
    | none => m
  else mapSet m r.tcode r

/-- One full-text-loop iteration: a full-text result takes a free slot; an
occupied slot keeps its value but has its score multiplied by 1.2, capped
at 1.0 (the full-text score itself is discarded). -/
def ftsMergeStep (m : SMap SearchResult) (r : SearchResult) : SMap SearchResult :=
  if mapHas m r.tcode then
    mapUpdate m r.tcode (fun existing =>
      { existing with relevanceScore := min 1 (existing.relevanceScore * 1.2) })
  else mapSet m r.tcode r

/-- The merge of `hybridSearch`: exact slots first (score forced to 1.0),
then the fuzzy loop, then the full-text loop. -/
def mergeHybrid (exactResults fuzzyResults ftsResults : List SearchResult) :
    SMap SearchResult :=
  let m0 := setSlots [] SearchResult.tcode
    (exactResults.map (fun r => { r with relevanceScore := 1 }))
  let m1 := fuzzyResults.foldl fuzzyMergeStep m0
  let m2 := ftsResults.foldl ftsMergeStep m1
  m2

/-- `hybridSearch`: run the three strategies (exact and fuzzy on the
trimmed lower-cased query, full-text on the raw query), merge, sort by
relevance descending (stable), return the top `limit`. -/
def hybridSearch (catalog : List CatalogEntry) (query : Str)
    (modules : Option (List Str)) (limit : ℕ) (includeDeprecated : Bool) :
    List SearchResult :=
  let normalizedQuery := lowerS (trimS query)
  let exactResults := executeExactSearch catalog normalizedQuery modules includeDeprecated
  let fuzzyResults := executeFuzzySearch catalog normalizedQuery modules includeDeprecated
  let ftsResults := executeFullTextSearch catalog query modules includeDeprecated
  (sortByRelevDesc (mapValues (mergeHybrid exactResults fuzzyResults ftsResults))).take limit

/- # Theorems -/

/- The Batteries rational primitives are sealed for the elaborator; the
concrete-input theorems below evaluate pipeline runs by `decide`, which
needs them to unfold. -/
attribute [local semireducible] Rat.ofScientific Rat.mul Rat.inv Rat.add Rat.sub

/- ## C5: the feedback boost factor -/

/-- The signed compressed net-vote term of `calculateBoostFactor`. -/
noncomputable def scaledScoreOf (n : ℤ) : ℝ :=
  (Int.sign n : ℝ) * Real.logb 10 (1 + (n.natAbs : ℝ)) * 0.15

lemma logbTerm_nonneg (k : ℕ) : 0 ≤ Real.logb 10 (1 + (k : ℝ)) :=
  Real.logb_nonneg (by norm_num) (le_add_of_nonneg_right (Nat.cast_nonneg k))

lemma logbTerm_mono {k k' : ℕ} (h : k ≤ k') :
    Real.logb 10 (1 + (k : ℝ)) ≤ Real.logb 10 (1 + (k' : ℝ)) :=
  Real.logb_le_logb_of_le (by norm_num) (by positivity)
    (by have : (k : ℝ) ≤ (k' : ℝ) := Nat.cast_le.mpr h; linarith)

lemma scaled_nonneg {n : ℤ} (h : 0 ≤ n) : 0 ≤ scaledScoreOf n := by
  rcases h.eq_or_lt with rfl | hpos
  · simp [scaledScoreOf]
  · unfold scaledScoreOf
    rw [Int.sign_eq_one_iff_pos.mpr hpos]
    have := logbTerm_nonneg n.natAbs
    nlinarith

lemma scaled_nonpos {n : ℤ} (h : n ≤ 0) : scaledScoreOf n ≤ 0 := by
  rcases h.eq_or_lt with rfl | hneg
  · simp [scaledScoreOf]
  · unfold scaledScoreOf
    rw [Int.sign_eq_neg_one_iff_neg.mpr hneg]
    have := logbTerm_nonneg n.natAbs
    nlinarith

lemma scaled_mono {n m : ℤ} (h : n ≤ m) : scaledScoreOf n ≤ scaledScoreOf m := by
  rcases le_or_lt m 0 with hm | hm
  · rcases hm.eq_or_lt with rfl | hmneg
    · exact (scaled_nonpos h).trans (by simp [scaledScoreOf])
    · have hn : n < 0 := lt_of_le_of_lt h hmneg
      have habs : m.natAbs ≤ n.natAbs := by omega
      have hlog := logbTerm_mono habs
      unfold scaledScoreOf
      rw [Int.sign_eq_neg_one_iff_neg.mpr hmneg, Int.sign_eq_neg_one_iff_neg.mpr hn]
      nlinarith
  · rcases le_or_lt n 0 with hn | hn
    · exact (scaled_nonpos hn).trans (scaled_nonneg hm.le)
    · have habs : n.natAbs ≤ m.natAbs := by omega
      have hlog := logbTerm_mono habs
      unfold scaledScoreOf
      rw [Int.sign_eq_one_iff_pos.mpr hm, Int.sign_eq_one_iff_pos.mpr hn]
      nlinarith

/-- `calculateBoostFactor` is the clamp of `1 + scaledScoreOf net` even at
net 0, where the early return and the clamped formula agree. -/
lemma boostFactor_eq (u d : ℕ) :
    calculateBoostFactor u d = max 0.7 (min 1.5 (1 + scaledScoreOf ((u : ℤ) - (d : ℤ)))) := by
  unfold calculateBoostFactor scaledScoreOf
  by_cases h : (u : ℤ) - (d : ℤ) = 0
  · rw [if_pos h, h]
    norm_num
  · rw [if_neg h]

/-- Claim C5: for all vote counts, `calculateBoostFactor(upvotes, downvotes)`
lies in [0.7, 1.5]; it equals exactly 1.0 when the net votes are zero; and
it is monotone in net upvotes: raising the upvote count (or lowering the
downvote count), all else fixed, never decreases the factor. -/
theorem C5_boost_factor_range_neutral_monotone :
    (∀ u d : ℕ, 0.7 ≤ calculateBoostFactor u d ∧ calculateBoostFactor u d ≤ 1.5)
    ∧ (∀ u d : ℕ, (u : ℤ) - (d : ℤ) = 0 → calculateBoostFactor u d = 1)
    ∧ (∀ u u' d : ℕ, u ≤ u' → calculateBoostFactor u d ≤ calculateBoostFactor u' d)
    ∧ (∀ u d d' : ℕ, d' ≤ d → calculateBoostFactor u d ≤ calculateBoostFactor u d') := by
  refine ⟨fun u d => ⟨?_, ?_⟩, fun u d h => ?_, fun u u' d h => ?_, fun u d d' h => ?_⟩
  · rw [boostFactor_eq]; exact le_max_left _ _
  · rw [boostFactor_eq]
    exact max_le (by norm_num) (min_le_left _ _)
  · unfold calculateBoostFactor
    rw [if_pos h]
  · rw [boostFactor_eq, boostFactor_eq]
    refine max_le_max le_rfl (min_le_min le_rfl (add_le_add_left ?_ 1))
    exact scaled_mono (by omega)
  · rw [boostFactor_eq, boostFactor_eq]
    refine max_le_max le_rfl (min_le_min le_rfl (add_le_add_left ?_ 1))
    exact scaled_mono (by omega)

/-- Witness for C5 at concrete votes: zero net votes at 2↑/2↓ give factor
1, and going from 1 to 3 net upvotes does not decrease the factor. -/
theorem C5_boost_factor_witness :
    calculateBoostFactor 2 2 = 1 ∧ calculateBoostFactor 1 0 ≤ calculateBoostFactor 3 0 :=
  ⟨C5_boost_factor_range_neutral_monotone.2.1 2 2 (by norm_num),
   C5_boost_factor_range_neutral_monotone.2.2.1 1 3 0 (by norm_num)⟩

/- ## C4: totality of the re-ranking stage -/

lemma defaultSim_ne_nil : defaultSimilarityExplanation ≠ [] := by decide

lemma defaultCriteria_ne_nil : defaultCriteriaExplanation ≠ [] := by decide

/-- Claim C4: re-ranking is total — for every input candidate list each
candidate yields exactly one output (same length, tcodes preserved
positionally), every output explanation is populated (non-empty); and on
timeout (`none`) or parse failure (`some none`) every output gets
confidence equal to its candidate's relevanceScore and the generic
description-similarity explanation. -/
theorem C4_rerank_total_with_deterministic_fallback :
    (∀ (candidates : List SearchResult) (gpt : GptOutcome),
        (rerankWithGPT candidates gpt).length = candidates.length)
    ∧ (∀ (candidates : List SearchResult) (gpt : GptOutcome) (i : ℕ),
        ((rerankWithGPT candidates gpt)[i]?).map AISearchResult.tcode
          = (candidates[i]?).map SearchResult.tcode)
    ∧ (∀ (candidates : List SearchResult) (gpt : GptOutcome),
        ∀ r ∈ rerankWithGPT candidates gpt, r.explanation ≠ [])
    ∧ (∀ (candidates : List SearchResult) (gpt : GptOutcome) (i : ℕ),
        gpt = none ∨ gpt = some none →
        ((rerankWithGPT candidates gpt)[i]?).map (fun r => (r.confidence, r.explanation))
          = (candidates[i]?).map (fun c => (c.relevanceScore, defaultSimilarityExplanation))) := by
  refine ⟨fun candidates gpt => ?_, fun candidates gpt i => ?_,
    fun candidates gpt r hr => ?_, fun candidates gpt i hgpt => ?_⟩
  · match gpt with
    | none => simp [rerankWithGPT, createDefaultResults]
    | some none => simp [rerankWithGPT, createDefaultResults]
    | some (some items) => simp [rerankWithGPT]
  · match gpt with
    | none =>
      simp only [rerankWithGPT, createDefaultResults, List.getElem?_map]
      cases candidates[i]? <;> rfl
    | some none =>
      simp only [rerankWithGPT, createDefaultResults, List.getElem?_map]
      cases candidates[i]? <;> rfl
    | some (some items) =>
      simp only [rerankWithGPT, List.getElem?_map]
      cases candidates[i]? <;> rfl
  · match gpt with
    | none =>
      simp only [rerankWithGPT, createDefaultResults, List.mem_map] at hr
      obtain ⟨c, -, rfl⟩ := hr
      exact defaultSim_ne_nil
    | some none =>
      simp only [rerankWithGPT, createDefaultResults, List.mem_map] at hr
      obtain ⟨c, -, rfl⟩ := hr
      exact defaultSim_ne_nil
    | some (some items) =>
      simp only [rerankWithGPT, List.mem_map] at hr
      obtain ⟨c, -, rfl⟩ := hr
      rcases hfind : items.find? (fun r => upperS r.tcode == upperS c.tcode) with - | it
      · simpa [hfind] using defaultCriteria_ne_nil
      · simp only [hfind]
        by_cases hemp : it.explanation.isEmpty = true
        · rw [List.isEmpty_iff] at hemp
          simpa [hemp] using defaultCriteria_ne_nil
        · rw [if_neg hemp]
          intro h
          exact hemp (by rw [h]; rfl)
  · rcases hgpt with rfl | rfl
    · simp only [rerankWithGPT, createDefaultResults, List.getElem?_map]
      cases candidates[i]? <;> rfl
    · simp only [rerankWithGPT, createDefaultResults, List.getElem?_map]
      cases candidates[i]? <;> rfl

/-- A one-element candidate list for the C4 witness. -/
def c4Candidate : SearchResult :=
  { tcode := ['M', 'E'], relevanceScore := 1/2, matchType := MatchType.semanticM }

/-- Witness for C4 at a concrete timed-out call on one candidate: the
output explanation is populated and the fallback is the candidate's
relevanceScore with the generic explanation. -/
theorem C4_rerank_witness :
    (rerankWithGPT [c4Candidate] none).length = 1
    ∧ ∀ r ∈ rerankWithGPT [c4Candidate] none, r.explanation ≠ [] :=
  ⟨C4_rerank_total_with_deterministic_fallback.1 [c4Candidate] none,
   C4_rerank_total_with_deterministic_fallback.2.2.1 [c4Candidate] none⟩

/- ## C8: the judge can only refine -/

/-- Claim C8: on any judge failure the pre-judge list is returned
unchanged; on success `applyJudgments` preserves count, order and the
identifier/description/module of every result, leaves a result without a
verdict untouched, and applies corrections field-by-field where a `null`
corrected field keeps the original value. -/
theorem C8_judge_refines_only :
    (∀ (judgeEnabled : Bool) (results : List AISearchResult),
        validateSearchResults judgeEnabled results none = results)
    ∧ (∀ (results : List AISearchResult) (judgments : List JudgeVerdict),
        (applyJudgments results judgments).length = results.length)
    ∧ (∀ (results : List AISearchResult) (judgments : List JudgeVerdict) (i : ℕ),
        ((applyJudgments results judgments)[i]?).map (fun r => (r.tcode, r.description, r.module))
          = (results[i]?).map (fun r => (r.tcode, r.description, r.module)))
    ∧ (∀ (results : List AISearchResult) (judgments : List JudgeVerdict) (i : ℕ)
        (r : AISearchResult), results[i]? = some r →
        mapGet? (judgmentMapOf judgments) (upperS r.tcode) = none →
        (applyJudgments results judgments)[i]? = some r)
    ∧ (∀ (results : List AISearchResult) (judgments : List JudgeVerdict) (i : ℕ)
        (r : AISearchResult) (j : JudgeVerdict), results[i]? = some r →
        mapGet? (judgmentMapOf judgments) (upperS r.tcode) = some j →
        (applyJudgments results judgments)[i]? = some
          { r with
              explanation := j.correctedExplanation.getD r.explanation,
              confidence := j.correctedConfidence.getD r.confidence }) := by
  refine ⟨fun judgeEnabled results => ?_, fun results judgments => ?_,
    fun results judgments i => ?_, fun results judgments i r hri hnone => ?_,
    fun results judgments i r j hri hj => ?_⟩
  · unfold validateSearchResults
    by_cases h : judgeEnabled <;> by_cases h2 : results.isEmpty = true <;> simp [h, h2]
  · simp [applyJudgments]
  · simp only [applyJudgments, List.getElem?_map]
    cases results[i]? with
    | none => rfl
    | some r =>
      rcases h : mapGet? (judgmentMapOf judgments) (upperS r.tcode) with - | j <;> simp [h]
  · simp [applyJudgments, hri, hnone]
  · simp [applyJudgments, hri, hj]

/-- Concrete judged result for the C8 witness. -/
def c8Result : AISearchResult :=
  { tcode := "FB50".data, explanation := "old".data, confidence := 1/2 }

/-- Concrete verdict for the C8 witness: a lower-case tcode, a null
corrected explanation and a corrected confidence. -/
def c8Verdict : JudgeVerdict :=
  { tcode := "fb50".data, correctedConfidence := some (3/4) }

/-- Witness for C8 at concrete inputs: the matched verdict replaces only
the confidence (its corrected explanation is null), keeping identifier,
description, module and the original explanation. -/
theorem C8_judge_witness :
    (applyJudgments [c8Result] [c8Verdict])[0]? = some
      { c8Result with
          explanation := Option.getD none c8Result.explanation,
          confidence := Option.getD (some (3/4)) c8Result.confidence } :=
  C8_judge_refines_only.2.2.2.2 [c8Result] [c8Verdict] 0 c8Result c8Verdict (by rfl) (by decide)

/- ## Association-map lemmas (shared by the merge stages) -/

section SMapLemmas

variable {α : Type} {m : SMap α} {key : α → Str}

/-- All pairs carry the key their value maps to (every `set` in the source
uses `r.tcode` as the key for `r`). -/
def KeyedBy (key : α → Str) (m : SMap α) : Prop := ∀ p ∈ m, p.1 = key p.2

def keysOf (m : SMap α) : List Str := m.map (·.1)

lemma mapGet?_cons (p : Str × α) (m : SMap α) (t : Str) :
    mapGet? (p :: m) t = if p.1 = t then some p.2 else mapGet? m t := by
  by_cases h : p.1 = t <;> simp [mapGet?, List.find?_cons, h]

lemma mapHas_eq_isSome (m : SMap α) (t : Str) : mapHas m t = (mapGet? m t).isSome := by
  induction m with
  | nil => rfl
  | cons p rest ih =>
    rw [mapGet?_cons]
    by_cases h : p.1 = t
    · simp [mapHas, h]
    · simp only [mapHas, List.any_cons] at ih ⊢
      simp [h, ih]

lemma mapGet?_inPlace (m : SMap α) (k t : Str) (v : α) (h : t ≠ k) :
    mapGet? (m.map (fun p => if p.1 = k then (k, v) else p)) t = mapGet? m t := by
  induction m with
  | nil => rfl
  | cons p rest ih =>
    simp only [List.map_cons]
    by_cases hpk : p.1 = k
    · rw [if_pos hpk, mapGet?_cons, mapGet?_cons,
        if_neg (show ¬(k, v).1 = t from fun hc => h hc.symm),
        if_neg (show ¬p.1 = t by rw [hpk]; exact fun hc => h hc.symm)]
      exact ih
    · rw [if_neg hpk, mapGet?_cons, mapGet?_cons]
      by_cases hpt : p.1 = t
      · rw [if_pos hpt, if_pos hpt]
      · rw [if_neg hpt, if_neg hpt]
        exact ih

lemma mapGet?_inPlace_self (m : SMap α) (k : Str) (v : α) :
    mapGet? (m.map (fun p => if p.1 = k then (k, v) else p)) k
      = (mapGet? m k).map (fun _ => v) := by
  induction m with
  | nil => rfl
  | cons p rest ih =>
    simp only [List.map_cons]
    by_cases hpk : p.1 = k
    · rw [if_pos hpk, mapGet?_cons, mapGet?_cons, if_pos rfl, if_pos hpk]
      rfl
    · rw [if_neg hpk, mapGet?_cons, mapGet?_cons, if_neg hpk, if_neg hpk]
      exact ih

lemma none_orElse_eq (f : Unit → Option α) : (none : Option α).orElse f = f () := rfl

lemma some_orElse_eq (a : α) (f : Unit → Option α) : (some a).orElse f = some a := rfl

lemma mapGet?_append (m m' : SMap α) (t : Str) :
    mapGet? (m ++ m') t = ((mapGet? m t).orElse (fun _ => mapGet? m' t)) := by
  induction m with
  | nil => simp [mapGet?]
  | cons p rest ih =>
    rw [List.cons_append, mapGet?_cons, mapGet?_cons]
    by_cases h : p.1 = t
    · rw [if_pos h, if_pos h]
      rfl
    · rw [if_neg h, if_neg h]
      exact ih

/-- The master equation of `Map.prototype.set`. -/
lemma mapGet?_mapSet (m : SMap α) (k : Str) (v : α) (t : Str) :
    mapGet? (mapSet m k v) t = if t = k then some v else mapGet? m t := by
  unfold mapSet
  by_cases hhas : mapHas m k
  · rw [if_pos hhas]
    by_cases htk : t = k
    · subst htk
      rw [if_pos rfl, mapGet?_inPlace_self]
      rw [mapHas_eq_isSome] at hhas
      rcases hget : mapGet? m t with - | w
      · rw [hget] at hhas; simp at hhas
      · rfl
    · rw [if_neg htk, mapGet?_inPlace m k t v htk]
  · rw [if_neg hhas, mapGet?_append]
    rcases hget : mapGet? m t with - | w
    · rw [none_orElse_eq]
      by_cases htk : t = k
      · subst htk
        rw [mapGet?_cons, if_pos rfl, if_pos rfl]
      · rw [mapGet?_cons, if_neg (show ¬(k, v).1 = t from fun hc => htk hc.symm), if_neg htk]
        rfl
    · rw [some_orElse_eq]
      by_cases htk : t = k
      · subst htk
        rw [mapHas_eq_isSome, hget] at hhas
        simp at hhas
      · rw [if_neg htk]

/-- The master equation of the in-place value mutation. -/
lemma mapGet?_mapUpdate (m : SMap α) (k : Str) (f : α → α) (t : Str) :
    mapGet? (mapUpdate m k f) t = if t = k then (mapGet? m k).map f else mapGet? m t := by
  induction m with
  | nil => by_cases htk : t = k <;> simp [mapUpdate, mapGet?, htk]
  | cons p rest ih =>
    simp only [mapUpdate, List.map_cons] at ih ⊢
    by_cases hpk : p.1 = k <;> by_cases htk : t = k
    · subst htk
      rw [if_pos hpk, mapGet?_cons, mapGet?_cons, if_pos hpk, if_pos rfl, if_pos hpk]
      rfl
    · rw [if_pos hpk, if_neg htk, mapGet?_cons, mapGet?_cons,
        if_neg (show ¬p.1 = t by rw [hpk]; exact fun hc => htk hc.symm),
        if_neg (show ¬p.1 = t by rw [hpk]; exact fun hc => htk hc.symm)]
      have := ih
      rw [if_neg htk] at this
      exact this
    · subst htk
      rw [if_neg hpk, mapGet?_cons, mapGet?_cons, if_neg hpk, if_pos rfl, if_neg hpk]
      have := ih
      rw [if_pos rfl] at this
      exact this
    · rw [if_neg hpk, if_neg htk, mapGet?_cons, mapGet?_cons]
      by_cases hpt : p.1 = t
      · rw [if_pos hpt, if_pos hpt]
      · rw [if_neg hpt, if_neg hpt]
        have := ih
        rw [if_neg htk] at this
        exact this

lemma setSlots_cons (init : SMap α) (key : α → Str) (r : α) (rs : List α) :
    setSlots init key (r :: rs) = setSlots (mapSet init (key r) r) key rs := rfl

lemma fillSlots_cons (init : SMap α) (key : α → Str) (r : α) (rs : List α) :
    fillSlots init key (r :: rs)
      = fillSlots (if mapHas init (key r) then init else mapSet init (key r) r) key rs := by
  unfold fillSlots
  by_cases h : mapHas init (key r) <;> simp [h]

lemma setSlots_frame {rs : List α} {t : Str} (init : SMap α)
    (h : ∀ r ∈ rs, key r ≠ t) :
    mapGet? (setSlots init key rs) t = mapGet? init t := by
  induction rs generalizing init with
  | nil => rfl
  | cons r rest ih =>
    rw [setSlots_cons, ih _ (fun x hx => h x (List.mem_cons_of_mem r hx)),
      mapGet?_mapSet, if_neg (fun hc => h r (List.mem_cons_self r rest) hc.symm)]

lemma setSlots_hit {rs : List α} {w : α} (init : SMap α)
    (hnd : (rs.map key).Nodup) (hw : w ∈ rs) :
    mapGet? (setSlots init key rs) (key w) = some w := by
  induction rs generalizing init with
  | nil => cases hw
  | cons r rest ih =>
    have hnd' := List.nodup_cons.mp (show (key r :: rest.map key).Nodup by simpa using hnd)
    rcases List.mem_cons.mp hw with rfl | hw'
    · rw [setSlots_cons]
      have hframe : ∀ x ∈ rest, key x ≠ key w :=
        fun x hx hc => hnd'.1 (hc ▸ List.mem_map_of_mem key hx)
      rw [setSlots_frame _ hframe, mapGet?_mapSet, if_pos rfl]
    · rw [setSlots_cons]
      exact ih _ hnd'.2 hw'

lemma setSlots_src {rs : List α} {t : Str} {r : α} (init : SMap α)
    (h : mapGet? (setSlots init key rs) t = some r) :
    (r ∈ rs ∧ key r = t) ∨ mapGet? init t = some r := by
  induction rs generalizing init with
  | nil => exact Or.inr h
  | cons x rest ih =>
    rw [setSlots_cons] at h
    rcases ih _ h with ⟨hmem, hkey⟩ | hinit
    · exact Or.inl ⟨List.mem_cons_of_mem x hmem, hkey⟩
    · rw [mapGet?_mapSet] at hinit
      by_cases htx : t = key x
      · rw [if_pos htx] at hinit
        rcases hinit with ⟨⟩
        exact Or.inl ⟨List.mem_cons_self _ _, htx.symm⟩
      · rw [if_neg htx] at hinit
        exact Or.inr hinit

lemma fillSlots_keep {rs : List α} {t : Str} {r : α} (init : SMap α)
    (h : mapGet? init t = some r) :
    mapGet? (fillSlots init key rs) t = some r := by
  induction rs generalizing init with
  | nil => exact h
  | cons x rest ih =>
    rw [fillSlots_cons]
    by_cases hhas : mapHas init (key x)
    · rw [if_pos hhas]; exact ih _ h
    · rw [if_neg hhas]
      refine ih _ ?_
      rw [mapGet?_mapSet]
      by_cases htx : t = key x
      · subst htx
        rw [mapHas_eq_isSome, h] at hhas
        simp at hhas
      · rw [if_neg htx]; exact h

lemma fillSlots_src {rs : List α} {t : Str} {r : α} (init : SMap α)
    (h : mapGet? (fillSlots init key rs) t = some r) :
    mapGet? init t = some r ∨ (r ∈ rs ∧ key r = t) := by
  induction rs generalizing init with
  | nil => exact Or.inl h
  | cons x rest ih =>
    rw [fillSlots_cons] at h
    by_cases hhas : mapHas init (key x)
    · rw [if_pos hhas] at h
      rcases ih _ h with hinit | hmem
      · exact Or.inl hinit
      · exact Or.inr ⟨List.mem_cons_of_mem x hmem.1, hmem.2⟩
    · rw [if_neg hhas] at h
      rcases ih _ h with hinit | hmem
      · rw [mapGet?_mapSet] at hinit
        by_cases htx : t = key x
        · rw [if_pos htx] at hinit
          rcases hinit with ⟨⟩
          exact Or.inr ⟨List.mem_cons_self _ _, htx.symm⟩
        · rw [if_neg htx] at hinit
          exact Or.inl hinit
      · exact Or.inr ⟨List.mem_cons_of_mem x hmem.1, hmem.2⟩

lemma mem_mapValues_of_get {t : Str} {r : α} (h : mapGet? m t = some r) :
    r ∈ mapValues m := by
  unfold mapGet? at h
  rcases Option.map_eq_some'.mp h with ⟨p, hfind, rfl⟩
  exact List.mem_map_of_mem _ (List.mem_of_find?_eq_some hfind)

lemma get_of_mem_keyed {k : Str} {r : α} (hm : (keysOf m).Nodup)
    (hmem : (k, r) ∈ m) : mapGet? m k = some r := by
  induction m with
  | nil => cases hmem
  | cons p rest ih =>
    have hnd := List.nodup_cons.mp (show (p.1 :: keysOf rest).Nodup from hm)
    rcases List.mem_cons.mp hmem with rfl | hmem'
    · rw [mapGet?_cons, if_pos rfl]
    · rw [mapGet?_cons]
      have hkmem : k ∈ keysOf rest := List.mem_map_of_mem (fun p => p.1) hmem'
      have hk : p.1 ≠ k := fun hc => hnd.1 (hc ▸ hkmem)
      rw [if_neg hk]
      exact ih hnd.2 hmem'

lemma mem_of_mem_mapValues {r : α} (h : r ∈ mapValues m) : ∃ k, (k, r) ∈ m := by
  rcases List.mem_map.mp h with ⟨p, hp, rfl⟩
  exact ⟨p.1, hp⟩

lemma keyed_of_mem {r : α} (hkey : KeyedBy key m) (h : r ∈ mapValues m) :
    (key r, r) ∈ m := by
  rcases mem_of_mem_mapValues h with ⟨k, hk⟩
  have h1 : k = key r := hkey (k, r) hk
  exact h1 ▸ hk

lemma keysOf_mapSet (m : SMap α) (k : Str) (v : α) :
    keysOf (mapSet m k v) = if mapHas m k then keysOf m else keysOf m ++ [k] := by
  unfold mapSet
  by_cases h : mapHas m k
  · rw [if_pos h, if_pos h]
    unfold keysOf
    rw [List.map_map]
    refine List.map_congr_left (fun p _ => ?_)
    by_cases hpk : p.1 = k <;> simp [hpk]
  · rw [if_neg h, if_neg h]
    simp [keysOf]

lemma nodupKeys_mapSet (hm : (keysOf m).Nodup) (k : Str) (v : α) :
    (keysOf (mapSet m k v)).Nodup := by
  rw [keysOf_mapSet]
  by_cases h : mapHas m k
  · rwa [if_pos h]
  · rw [if_neg h]
    refine List.Nodup.append hm (List.nodup_singleton k) ?_
    intro t ht hts
    rcases List.mem_singleton.mp hts with rfl
    have : mapHas m t = true := by
      unfold mapHas
      rw [List.any_eq_true]
      rcases List.mem_map.mp ht with ⟨p, hp, rfl⟩
      exact ⟨p, hp, by simp⟩
    exact h this

lemma keyedBy_mapSet (hkey : KeyedBy key m) (r : α) :
    KeyedBy key (mapSet m (key r) r) := by
  unfold mapSet
  by_cases h : mapHas m (key r)
  · rw [if_pos h]
    intro p hp
    rcases List.mem_map.mp hp with ⟨q, hq, rfl⟩
    by_cases hqk : q.1 = key r
    · rw [if_pos hqk]
    · rw [if_neg hqk]
      exact hkey q hq
  · rw [if_neg h]
    intro p hp
    rcases List.mem_append.mp hp with hp' | hp'
    · exact hkey p hp'
    · rcases List.mem_singleton.mp hp' with rfl
      rfl

lemma setSlots_nodupKeys {rs : List α} (init : SMap α) (hm : (keysOf init).Nodup) :
    (keysOf (setSlots init key rs)).Nodup := by
  induction rs generalizing init with
  | nil => exact hm
  | cons r rest ih => exact setSlots_cons _ _ _ _ ▸ ih _ (nodupKeys_mapSet hm _ _)

lemma setSlots_keyed {rs : List α} (init : SMap α) (hkey : KeyedBy key init) :
    KeyedBy key (setSlots init key rs) := by
  induction rs generalizing init with
  | nil => exact hkey
  | cons r rest ih => exact setSlots_cons _ _ _ _ ▸ ih _ (keyedBy_mapSet hkey r)

lemma fillSlots_nodupKeys {rs : List α} (init : SMap α) (hm : (keysOf init).Nodup) :
    (keysOf (fillSlots init key rs)).Nodup := by
  induction rs generalizing init with
  | nil => exact hm
  | cons r rest ih =>
    rw [fillSlots_cons]
    by_cases h : mapHas init (key r)
    · rw [if_pos h]; exact ih _ hm
    · rw [if_neg h]; exact ih _ (nodupKeys_mapSet hm _ _)

lemma fillSlots_keyed {rs : List α} (init : SMap α) (hkey : KeyedBy key init) :
    KeyedBy key (fillSlots init key rs) := by
  induction rs generalizing init with
  | nil => exact hkey
  | cons r rest ih =>
    rw [fillSlots_cons]
    by_cases h : mapHas init (key r)
    · rw [if_pos h]; exact ih _ hkey
    · rw [if_neg h]; exact ih _ (keyedBy_mapSet hkey r)

lemma length_mapSet (m : SMap α) (k : Str) (v : α) :
    (mapSet m k v).length ≤ m.length + 1 := by
  unfold mapSet
  by_cases h : mapHas m k
  · rw [if_pos h, List.length_map]
    omega
  · rw [if_neg h, List.length_append]
    simp

lemma length_setSlots {rs : List α} (init : SMap α) :
    (setSlots init key rs).length ≤ init.length + rs.length := by
  induction rs generalizing init with
  | nil => simp [setSlots]
  | cons r rest ih =>
    rw [setSlots_cons]
    calc (setSlots (mapSet init (key r) r) key rest).length
        ≤ (mapSet init (key r) r).length + rest.length := ih _
      _ ≤ init.length + 1 + rest.length := by
          have := length_mapSet init (key r) r
          omega
      _ = init.length + (r :: rest).length := by simp; omega

lemma length_fillSlots {rs : List α} (init : SMap α) :
    (fillSlots init key rs).length ≤ init.length + rs.length := by
  induction rs generalizing init with
  | nil => simp [fillSlots]
  | cons r rest ih =>
    rw [fillSlots_cons]
    by_cases h : mapHas init (key r)
    · rw [if_pos h]
      have := ih init
      simp only [List.length_cons]
      omega
    · rw [if_neg h]
      have h1 := ih (mapSet init (key r) r)
      have h2 := length_mapSet init (key r) r
      simp only [List.length_cons]
      omega

lemma length_mapValues (m : SMap α) : (mapValues m).length = m.length := by
  simp [mapValues]

end SMapLemmas

/- ## C3: the web-validation fallback -/

lemma validate_elem {catalog : List CatalogEntry} {tcodes : List Str} {r : AISearchResult}
    (hr : r ∈ validateAndFetchTCodes catalog tcodes) :
    r.confidence = 0.75 ∧ r.source = some srcWeb
      ∧ ∃ e ∈ catalog, r.tcode = e.tcode ∧ e.isDeprecated = false := by
  unfold validateAndFetchTCodes at hr
  by_cases he : tcodes.isEmpty
  · rw [if_pos he] at hr
    cases hr
  · rw [if_neg he] at hr
    rcases List.mem_map.mp hr with ⟨e, he2, rfl⟩
    have hmem : e ∈ catalog.filter (fun e => tcodes.contains e.tcode && !e.isDeprecated) :=
      (List.take_sublist _ _).mem he2
    have hfe := List.mem_filter.mp hmem
    refine ⟨rfl, rfl, e, hfe.1, rfl, ?_⟩
    have := hfe.2
    simp only [Bool.and_eq_true, Bool.not_eq_true'] at this
    exact this.2

lemma validate_tcodes_nodup {catalog : List CatalogEntry}
    (h : (catalog.map CatalogEntry.tcode).Nodup) (tcodes : List Str) :
    ((validateAndFetchTCodes catalog tcodes).map AISearchResult.tcode).Nodup := by
  unfold validateAndFetchTCodes
  by_cases he : tcodes.isEmpty
  · rw [if_pos he]
    exact List.nodup_nil
  · rw [if_neg he, List.map_map]
    have heq : ((catalog.filter (fun e => tcodes.contains e.tcode && !e.isDeprecated)).take 10).map
          (AISearchResult.tcode ∘ fun e =>
            ({ tcode := e.tcode, description := e.description, module := e.module,
               explanation := webExplanationText, confidence := 0.75,
               source := some srcWeb } : AISearchResult))
        = ((catalog.filter (fun e => tcodes.contains e.tcode && !e.isDeprecated)).take 10).map
            CatalogEntry.tcode :=
      List.map_congr_left (fun e _ => rfl)
    rw [heq]
    exact h.sublist (List.Sublist.map CatalogEntry.tcode
      ((List.take_sublist _ _).trans (List.filter_sublist _)))

lemma fillSlots_insert {α : Type} {key : α → Str} {rs : List α} {r : α}
    (hnd : (rs.map key).Nodup) (hr : r ∈ rs) (init : SMap α)
    (hm : mapGet? init (key r) = none) :
    mapGet? (fillSlots init key rs) (key r) = some r := by
  induction rs generalizing init with
  | nil => cases hr
  | cons x rest ih =>
    have hnd' := List.nodup_cons.mp (show (key x :: rest.map key).Nodup by simpa using hnd)
    rw [fillSlots_cons]
    rcases List.mem_cons.mp hr with rfl | hr'
    · have hhas : ¬ mapHas init (key r) := by
        rw [mapHas_eq_isSome, hm]
        simp
      rw [if_neg hhas]
      refine fillSlots_keep _ ?_
      rw [mapGet?_mapSet, if_pos rfl]
    · by_cases hhas : mapHas init (key x)
      · rw [if_pos hhas]
        exact ih hnd'.2 hr' _ hm
      · rw [if_neg hhas]
        refine ih hnd'.2 hr' _ ?_
        rw [mapGet?_mapSet,
          if_neg (fun hc => hnd'.1 (by rw [← hc]; exact List.mem_map_of_mem key hr'))]
        exact hm

/-- Claim C3 (amended): the fallback fires only when the top existing
confidence is strictly below the threshold and otherwise returns its input
unchanged (likewise when the web yields no content or no validated hit);
every catalog-validated web hit carries the fixed moderate confidence 0.75;
and in the merge a web hit wins the slot for its identifier outright —
an existing result with the same identifier is replaced by the 0.75-web
hit (not boosted 15%), while among identifier-distinct existing results
every one whose identifier no web hit shares is kept in the output,
and the output is deduplicated by identifier. -/
theorem C3_web_fallback_gate_and_merge :
    (∀ (catalog : List CatalogEntry) (webContent : Str) (existing : List AISearchResult)
        (thr : ℚ), thr ≤ ((existing.head?).map (·.confidence)).getD 0 →
        enhanceWithWebSearch catalog webContent existing thr = (existing, false))
    ∧ (∀ (catalog : List CatalogEntry) (webContent : Str) (existing : List AISearchResult)
        (thr : ℚ) (out : List AISearchResult),
        enhanceWithWebSearch catalog webContent existing thr = (out, false) → out = existing)
    ∧ (∀ (catalog : List CatalogEntry) (tcodes : List Str),
        ∀ r ∈ validateAndFetchTCodes catalog tcodes,
        r.confidence = 0.75 ∧ r.source = some srcWeb
          ∧ ∃ e ∈ catalog, r.tcode = e.tcode ∧ e.isDeprecated = false)
    ∧ (∀ (catalog : List CatalogEntry) (webContent : Str) (existing : List AISearchResult)
        (thr : ℚ) (out : List AISearchResult),
        enhanceWithWebSearch catalog webContent existing thr = (out, true) →
        (catalog.map CatalogEntry.tcode).Nodup →
        (∀ w ∈ validateAndFetchTCodes catalog (extractTCodes webContent), w ∈ out)
        ∧ (∀ r ∈ out,
            r ∈ validateAndFetchTCodes catalog (extractTCodes webContent)
            ∨ (r ∈ existing
                ∧ ∀ w ∈ validateAndFetchTCodes catalog (extractTCodes webContent),
                    w.tcode ≠ r.tcode))
        ∧ (∀ r ∈ existing,
            (existing.map AISearchResult.tcode).Nodup →
            (∀ w ∈ validateAndFetchTCodes catalog (extractTCodes webContent),
                w.tcode ≠ r.tcode) →
            r ∈ out)
        ∧ (out.map AISearchResult.tcode).Nodup) := by
  refine ⟨fun catalog webContent existing thr htop => ?_,
    fun catalog webContent existing thr out hout => ?_,
    fun catalog tcodes r hr => validate_elem hr,
    fun catalog webContent existing thr out hout hcat => ?_⟩
  · unfold enhanceWithWebSearch
    rw [if_pos htop]
  · unfold enhanceWithWebSearch at hout
    dsimp only at hout
    split at hout
    · rcases hout with ⟨⟩; rfl
    · split at hout
      · rcases hout with ⟨⟩; rfl
      · split at hout
        · rcases hout with ⟨⟩; rfl
        · rcases hout with ⟨⟩
  · -- the fired merge
    unfold enhanceWithWebSearch at hout
    dsimp only at hout
    split at hout
    · rcases hout with ⟨⟩
    · split at hout
      · rcases hout with ⟨⟩
      · split at hout
        · rcases hout with ⟨⟩
        · rcases hout with ⟨⟩
          set webResults := validateAndFetchTCodes catalog (extractTCodes webContent) with hweb
          set m0 := setSlots [] AISearchResult.tcode webResults with hm0
          set m1 := fillSlots m0 AISearchResult.tcode existing with hm1
          have hwnd : (webResults.map AISearchResult.tcode).Nodup :=
            validate_tcodes_nodup hcat _
          have hkeyed : KeyedBy AISearchResult.tcode m1 :=
            fillSlots_keyed _ (setSlots_keyed _ (fun p hp => absurd hp (List.not_mem_nil p)))
          have hnk : (keysOf m1).Nodup :=
            fillSlots_nodupKeys _ (setSlots_nodupKeys _ List.nodup_nil)
          have hgetw : ∀ w ∈ webResults, mapGet? m1 w.tcode = some w := by
            intro w hw
            exact fillSlots_keep _ (setSlots_hit _ hwnd hw)
          have hmemiff : ∀ r : AISearchResult,
              r ∈ sortByConfDesc (mapValues m1) ↔ r ∈ mapValues m1 := by
            intro r
            exact List.mem_insertionSort confGe
          refine ⟨fun w hw => (hmemiff w).mpr (mem_mapValues_of_get (hgetw w hw)), ?_, ?_, ?_⟩
          · intro r hr
            have hrv : r ∈ mapValues m1 := (hmemiff r).mp hr
            have hget : mapGet? m1 r.tcode = some r :=
              get_of_mem_keyed hnk (keyed_of_mem hkeyed hrv)
            by_cases hshare : ∃ w ∈ webResults, w.tcode = r.tcode
            · rcases hshare with ⟨w, hw, hwt⟩
              have := hgetw w hw
              rw [hwt, hget] at this
              rcases this with ⟨⟩
              exact Or.inl hw
            · rcases fillSlots_src _ hget with hinit | hmem
              · rcases setSlots_src _ hinit with ⟨hmem, -⟩ | hnil
                · exact Or.inl hmem
                · cases hnil
              · exact Or.inr ⟨hmem.1, fun w hw hc => hshare ⟨w, hw, hc⟩⟩
          · intro r hr hexnd hfresh
            have hm0none : mapGet? m0 r.tcode = none := by
              rw [hm0, setSlots_frame _ (fun w hw => hfresh w hw)]
              rfl
            have hget : mapGet? m1 r.tcode = some r :=
              fillSlots_insert hexnd hr _ hm0none
            exact (hmemiff r).mpr (mem_mapValues_of_get hget)
          · have : (mapValues m1).map AISearchResult.tcode = keysOf m1 := by
              unfold mapValues keysOf
              rw [List.map_map]
              exact List.map_congr_left (fun p hp => (hkeyed p hp).symm)
            have hnd : ((mapValues m1).map AISearchResult.tcode).Nodup := this ▸ hnk
            have hperm : List.Perm (sortByConfDesc (mapValues m1)) (mapValues m1) :=
              List.perm_insertionSort confGe _
            exact (hperm.map AISearchResult.tcode).nodup_iff.mpr hnd

/-- Existing result above the threshold for the C3 witness. -/
def c3High : AISearchResult :=
  { tcode := "VA01".data, explanation := "strong match".data, confidence := 0.9 }

/-- Existing low-confidence result for the C3 witness/counterexample. -/
def c3Existing : AISearchResult :=
  { tcode := "ME21N".data, explanation := "Based on purchasing semantics.".data,
    confidence := 0.5 }

/-- Catalog entry backing the validated web hit. -/
def c3Entry : CatalogEntry :=
  { tcode := "ME21N".data, description := some ("Create Purchase Order".data) }

def c3WebText : Str := "Use ME21N to create".data

/-- Witness for C3 at concrete inputs: a top confidence of 0.9 ≥ 0.6 keeps
the results untouched; in a fired merge the validated `ME21N` web hit
appears in the output; and a fired merge keeps the existing `VA01` result,
whose identifier no web hit shares. -/
theorem C3_web_fallback_witness :
    enhanceWithWebSearch [c3Entry] c3WebText [c3High] 0.6 = ([c3High], false)
    ∧ (∀ w ∈ validateAndFetchTCodes [c3Entry] (extractTCodes c3WebText),
        w ∈ (enhanceWithWebSearch [c3Entry] c3WebText [c3Existing] 0.6).1)
    ∧ c3High ∈ (enhanceWithWebSearch [c3Entry] c3WebText [c3Existing, c3High] 0.6).1 :=
  ⟨C3_web_fallback_gate_and_merge.1 [c3Entry] c3WebText [c3High] 0.6 (by decide),
   (C3_web_fallback_gate_and_merge.2.2.2 [c3Entry] c3WebText [c3Existing] 0.6
      (enhanceWithWebSearch [c3Entry] c3WebText [c3Existing] 0.6).1 (by decide)
      (by decide)).1,
   (C3_web_fallback_gate_and_merge.2.2.2 [c3Entry] c3WebText [c3Existing, c3High] 0.6
      (enhanceWithWebSearch [c3Entry] c3WebText [c3Existing, c3High] 0.6).1 (by decide)
      (by decide)).2.2.1 c3High (by decide) (by decide) (by decide)⟩

/-- Counterexample for C3 as stated: with an existing `ME21N` at confidence
0.5 and a web-validated `ME21N`, the claim predicts a 15% boost capped at
0.95 (0.575) on the existing candidate, but the merge replaces the slot
with the fixed 0.75-confidence web hit and its web explanation. -/
theorem C3_counterexample_web_replaces_not_boosts :
    (enhanceWithWebSearch [c3Entry] c3WebText [c3Existing] 0.6).1.map
        (fun r => (r.confidence, r.explanation))
      = [(0.75, webExplanationText)]
    ∧ min 0.95 (c3Existing.confidence * 1.15) = 0.575
    ∧ ¬ ((0.75 : ℚ) = 0.575) := by
  refine ⟨by decide, by decide, by decide⟩

/- ## C7: the MOLGA locale boost -/

/-- The per-candidate update applied by `applyMolgaBoost` once a locale is
active. -/
def molgaAdjust (activeMolga : ℕ) (r : Boostable) : Boostable :=
  match extractMolgaFromTcode r.tcode with
  | some tcodeMolga =>
    if tcodeMolga = activeMolga then
      { r with
          confidence := r.confidence.map (fun c => min 0.99 (c * 1.5)),
          relevanceScore := r.relevanceScore.map (fun s => min 1 (s * 1.5)) }
    else
      { r with
          confidence := r.confidence.map (fun c => c * 0.5),
          relevanceScore := r.relevanceScore.map (fun s => s * 0.5) }
  | none => r

lemma applyMolgaBoost_cons_eq (molgaData : List MolgaEntry) (results : List Boostable)
    (query : Str) (mm : MolgaMatch) (rest : List MolgaMatch)
    (hdet : detectCountryInQuery molgaData query = mm :: rest) (hne : results ≠ []) :
    applyMolgaBoost molgaData results query = (results.map (molgaAdjust mm.molga), some mm) := by
  unfold applyMolgaBoost
  rw [if_neg (fun hc => hne (List.isEmpty_iff.mp hc)), hdet]
  rfl

/-- The same update on the `AISearchResult` instantiation. -/
def molgaAdjustAI (activeMolga : ℕ) (r : AISearchResult) : AISearchResult :=
  match extractMolgaFromTcode r.tcode with
  | some tcodeMolga =>
    if tcodeMolga = activeMolga then { r with confidence := min 0.99 (r.confidence * 1.5) }
    else { r with confidence := r.confidence * 0.5 }
  | none => r

lemma applyMolgaBoostAI_cons_eq (molgaData : List MolgaEntry) (results : List AISearchResult)
    (query : Str) (mm : MolgaMatch) (rest : List MolgaMatch)
    (hdet : detectCountryInQuery molgaData query = mm :: rest) (hne : results ≠ []) :
    applyMolgaBoostAI molgaData results query
      = (results.map (molgaAdjustAI mm.molga), some mm) := by
  unfold applyMolgaBoostAI
  rw [if_neg (fun hc => hne (List.isEmpty_iff.mp hc)), hdet]
  rfl

lemma half_lt_boosted {c : ℚ} (hc : 0 < c) (hc1 : c ≤ 1) :
    c * 0.5 < min 0.99 (c * 1.5) := by
  rcases le_or_lt (c * 1.5) 0.99 with h | h
  · rw [min_eq_right h]
    nlinarith
  · rw [min_eq_left h.le]
    nlinarith

/-- Claim C7 (amended): with a detected locale (the first detected country
is the active one), a candidate whose identifier embeds the active MOLGA
pattern has confidence multiplied by 1.5 capped at 0.99 and relevanceScore
by 1.5 capped at 1.0, a candidate embedding a different pattern has both
halved, and a candidate with no embedded pattern is untouched; and for two
otherwise-equal candidates with a *positive, in-range* shared confidence,
one matching and one conflicting, the matching one ranks first after the
descending re-sort, whichever order they arrive in.  (At confidence 0 the
two candidates tie, so the unqualified ranking claim fails — see the
counterexample.) -/
theorem C7_molga_boost_amended :
    (∀ (molgaData : List MolgaEntry) (results : List Boostable) (query : Str),
        results ≠ [] →
        (applyMolgaBoost molgaData results query).2
          = (detectCountryInQuery molgaData query).head?)
    ∧ (∀ (molgaData : List MolgaEntry) (results : List Boostable) (query : Str)
        (mm : MolgaMatch) (rest : List MolgaMatch),
        detectCountryInQuery molgaData query = mm :: rest → results ≠ [] →
        ∀ (i : ℕ) (r : Boostable), results[i]? = some r →
        ∃ r', ((applyMolgaBoost molgaData results query).1)[i]? = some r'
          ∧ r'.tcode = r.tcode
          ∧ (extractMolgaFromTcode r.tcode = none → r' = r)
          ∧ (extractMolgaFromTcode r.tcode = some mm.molga →
              r'.confidence = r.confidence.map (fun c => min 0.99 (c * 1.5))
              ∧ r'.relevanceScore = r.relevanceScore.map (fun s => min 1 (s * 1.5)))
          ∧ (∀ n, extractMolgaFromTcode r.tcode = some n → n ≠ mm.molga →
              r'.confidence = r.confidence.map (fun c => c * 0.5)
              ∧ r'.relevanceScore = r.relevanceScore.map (fun s => s * 0.5)))
    ∧ (∀ (molgaData : List MolgaEntry) (query : Str) (mm : MolgaMatch)
        (rest : List MolgaMatch) (a b : AISearchResult) (c : ℚ),
        detectCountryInQuery molgaData query = mm :: rest →
        0 < c → c ≤ 1 → a.confidence = c → b.confidence = c →
        extractMolgaFromTcode a.tcode = some mm.molga →
        (∀ n, extractMolgaFromTcode b.tcode = some n → n ≠ mm.molga) →
        (∃ n, extractMolgaFromTcode b.tcode = some n) →
        ((sortByConfDesc (applyMolgaBoostAI molgaData [a, b] query).1).head?).map
            AISearchResult.tcode = some a.tcode
        ∧ ((sortByConfDesc (applyMolgaBoostAI molgaData [b, a] query).1).head?).map
            AISearchResult.tcode = some a.tcode) := by
  refine ⟨fun molgaData results query hne => ?_,
    fun molgaData results query mm rest hdet hne i r hri => ?_,
    fun molgaData query mm rest a b c hdet hc hc1 hac hbc hma hmb hbn => ?_⟩
  · unfold applyMolgaBoost
    rw [if_neg (fun hc => hne (List.isEmpty_iff.mp hc))]
    rcases hdet : detectCountryInQuery molgaData query with - | ⟨mm, rest⟩ <;> rfl
  · rw [applyMolgaBoost_cons_eq molgaData results query mm rest hdet hne]
    refine ⟨molgaAdjust mm.molga r, ?_, ?_, ?_, ?_, ?_⟩
    · simp [hri]
    · unfold molgaAdjust
      rcases hx : extractMolgaFromTcode r.tcode with - | n
      · rfl
      · dsimp only
        by_cases hn : n = mm.molga
        · rw [if_pos hn]
        · rw [if_neg hn]
    · intro hx
      unfold molgaAdjust
      rw [hx]
    · intro hx
      unfold molgaAdjust
      rw [hx]
      dsimp only
      rw [if_pos rfl]
      exact ⟨rfl, rfl⟩
    · intro n hx hn
      unfold molgaAdjust
      rw [hx]
      dsimp only
      rw [if_neg hn]
      exact ⟨rfl, rfl⟩
  · rcases hbn with ⟨nb, hnb⟩
    have hadjA : molgaAdjustAI mm.molga a = { a with confidence := min 0.99 (c * 1.5) } := by
      unfold molgaAdjustAI
      rw [hma]
      dsimp only
      rw [if_pos rfl, hac]
    have hadjB : molgaAdjustAI mm.molga b = { b with confidence := c * 0.5 } := by
      unfold molgaAdjustAI
      rw [hnb]
      dsimp only
      rw [if_neg (hmb nb hnb), hbc]
    have hlt := half_lt_boosted hc hc1
    constructor
    · rw [applyMolgaBoostAI_cons_eq molgaData [a, b] query mm rest hdet (by simp)]
      simp only [List.map_cons, List.map_nil, hadjA, hadjB]
      unfold sortByConfDesc
      rw [List.insertionSort, List.insertionSort, List.insertionSort,
        List.orderedInsert, List.orderedInsert,
        if_pos (show confGe { a with confidence := min 0.99 (c * 1.5) }
          { b with confidence := c * 0.5 } from le_of_lt hlt)]
      rfl
    · rw [applyMolgaBoostAI_cons_eq molgaData [b, a] query mm rest hdet (by simp)]
      simp only [List.map_cons, List.map_nil, hadjA, hadjB]
      unfold sortByConfDesc
      rw [List.insertionSort, List.insertionSort, List.insertionSort,
        List.orderedInsert, List.orderedInsert,
        if_neg (show ¬ confGe { b with confidence := c * 0.5 }
          { a with confidence := min 0.99 (c * 1.5) } from not_le.mpr hlt)]
      rfl

/-- MOLGA reference row for the C7 witness/counterexample (USA, MOLGA 10,
alias `usa`). -/
def c7USA : MolgaEntry :=
  { molga := 10, isoCode := "us".data, country := "united states".data,
    aliases := ["usa".data] }

def c7Query : Str := "usa payroll".data

/-- Candidate embedding the active locale pattern `M10`. -/
def c7Matching : AISearchResult :=
  { tcode := "PC00_M10_CEDT".data, explanation := [], confidence := 0 }

/-- Candidate embedding the conflicting pattern `M01`. -/
def c7Conflicting : AISearchResult :=
  { tcode := "PC00_M01_CEDT".data, explanation := [], confidence := 0 }

/-- Witness for C7 at concrete inputs: at shared confidence 0.4 the
matching candidate ranks first from either input order. -/
theorem C7_molga_boost_witness :
    ((sortByConfDesc (applyMolgaBoostAI [c7USA]
        [{ c7Matching with confidence := 0.4 }, { c7Conflicting with confidence := 0.4 }]
        c7Query).1).head?).map AISearchResult.tcode = some c7Matching.tcode
    ∧ ((sortByConfDesc (applyMolgaBoostAI [c7USA]
        [{ c7Conflicting with confidence := 0.4 }, { c7Matching with confidence := 0.4 }]
        c7Query).1).head?).map AISearchResult.tcode = some c7Matching.tcode :=
  C7_molga_boost_amended.2.2 [c7USA] c7Query
    ⟨10, "united states".data, molgaPatternOf 10, "usa".data⟩ []
    { c7Matching with confidence := 0.4 } { c7Conflicting with confidence := 0.4 } 0.4
    (by decide) (by decide) (by decide) rfl rfl (by decide)
    (by decide) ⟨1, by decide⟩

/-- Counterexample for C7 as stated: at shared confidence 0, a query with a
detected locale and one matching- and one conflicting-pattern candidate
leaves both confidences at 0, and the conflicting candidate (first in the
input) still ranks first — the matching one does not rank above it. -/
theorem C7_counterexample_zero_confidence_tie :
    (detectCountryInQuery [c7USA] c7Query ≠ [])
    ∧ extractMolgaFromTcode c7Matching.tcode = some 10
    ∧ extractMolgaFromTcode c7Conflicting.tcode = some 1
    ∧ (detectCountryInQuery [c7USA] c7Query).head?.map (fun m => m.molga) = some 10
    ∧ c7Matching.confidence = c7Conflicting.confidence
    ∧ ((sortByConfDesc (applyMolgaBoostAI [c7USA] [c7Conflicting, c7Matching] c7Query).1).head?).map
        AISearchResult.tcode = some c7Conflicting.tcode := by
  refine ⟨by decide, by decide, by decide, by decide, by decide, by decide⟩

/- ## C6: the hybridSearch merge -/

lemma get_head {α : Type} {m : SMap α} {p : Str × α} (h : m.head? = some p) :
    mapGet? m p.1 = some p.2 := by
  rcases m with - | ⟨q, rest⟩
  · cases h
  · rcases h with ⟨⟩
    rw [mapGet?_cons, if_pos rfl]

lemma mapSet_head {α : Type} {m : SMap α} {k : Str} {x : α} {p : Str × α}
    (h : m.head? = some p) (hk : p.1 ≠ k) : (mapSet m k x).head? = some p := by
  rcases m with - | ⟨q, rest⟩
  · cases h
  · rcases h with ⟨⟩
    unfold mapSet
    split
    · simp only [List.map_cons, List.head?_cons, if_neg hk]
    · simp only [List.cons_append, List.head?_cons]

lemma mapUpdate_head {α : Type} {m : SMap α} {k : Str} {f : α → α} {p : Str × α}
    (h : m.head? = some p) :
    (mapUpdate m k f).head? = some (if p.1 = k then (p.1, f p.2) else p) := by
  rcases m with - | ⟨q, rest⟩
  · cases h
  · rcases h with ⟨⟩
    unfold mapUpdate
    by_cases hpk : p.1 = k
    · simp only [List.map_cons, List.head?_cons, if_pos hpk]
    · simp only [List.map_cons, List.head?_cons, if_neg hpk]

lemma mem_values_mapSet {α : Type} {m : SMap α} {k : Str} {x v : α}
    (h : v ∈ mapValues (mapSet m k x)) : v = x ∨ v ∈ mapValues m := by
  unfold mapSet at h
  split at h
  · rcases List.mem_map.mp h with ⟨p, hp, rfl⟩
    rcases List.mem_map.mp hp with ⟨q, hq, rfl⟩
    by_cases hqk : q.1 = k
    · rw [if_pos hqk]
      exact Or.inl rfl
    · rw [if_neg hqk]
      exact Or.inr (List.mem_map_of_mem _ hq)
  · unfold mapValues at h
    rw [List.map_append] at h
    rcases List.mem_append.mp h with h' | h'
    · exact Or.inr h'
    · rcases List.mem_singleton.mp h' with rfl
      exact Or.inl rfl

lemma mem_values_mapUpdate {α : Type} {m : SMap α} {k : Str} {f : α → α} {v : α}
    (h : v ∈ mapValues (mapUpdate m k f)) :
    v ∈ mapValues m ∨ ∃ w ∈ mapValues m, v = f w := by
  unfold mapUpdate at h
  rcases List.mem_map.mp h with ⟨p, hp, rfl⟩
  rcases List.mem_map.mp hp with ⟨q, hq, rfl⟩
  by_cases hqk : q.1 = k
  · rw [if_pos hqk]
    exact Or.inr ⟨q.2, List.mem_map_of_mem _ hq, rfl⟩
  · rw [if_neg hqk]
    exact Or.inl (List.mem_map_of_mem _ hq)

lemma fuzzyStep_frame {m : SMap SearchResult} {r : SearchResult} {t : Str}
    (h : r.tcode ≠ t) : mapGet? (fuzzyMergeStep m r) t = mapGet? m t := by
  unfold fuzzyMergeStep
  split
  · split
    · split
      · rw [mapGet?_mapSet, if_neg (fun hc => h hc.symm)]
      · rfl
    · rfl
  · rw [mapGet?_mapSet, if_neg (fun hc => h hc.symm)]

lemma fuzzyStep_at (m : SMap SearchResult) (r : SearchResult) :
    mapGet? (fuzzyMergeStep m r) r.tcode =
      match mapGet? m r.tcode with
      | some existing =>
        if existing.relevanceScore < r.relevanceScore then some r else some existing
      | none => some r := by
  unfold fuzzyMergeStep
  rw [mapHas_eq_isSome]
  rcases hv : mapGet? m r.tcode with - | v
  · simp only [Option.isSome_none, Bool.false_eq_true, if_false]
    rw [mapGet?_mapSet, if_pos rfl]
  · simp only [Option.isSome_some, if_true]
    split
    · rw [mapGet?_mapSet, if_pos rfl]
    · rw [hv]

lemma ftsStep_frame {m : SMap SearchResult} {r : SearchResult} {t : Str}
    (h : r.tcode ≠ t) : mapGet? (ftsMergeStep m r) t = mapGet? m t := by
  unfold ftsMergeStep
  split
  · rw [mapGet?_mapUpdate, if_neg (fun hc => h hc.symm)]
  · rw [mapGet?_mapSet, if_neg (fun hc => h hc.symm)]

lemma ftsStep_at (m : SMap SearchResult) (r : SearchResult) :
    mapGet? (ftsMergeStep m r) r.tcode =
      match mapGet? m r.tcode with
      | some existing =>
        some { existing with relevanceScore := min 1 (existing.relevanceScore * 1.2) }
      | none => some r := by
  unfold ftsMergeStep
  rw [mapHas_eq_isSome]
  rcases hv : mapGet? m r.tcode with - | v
  · simp only [Option.isSome_none, Bool.false_eq_true, if_false]
    rw [mapGet?_mapSet, if_pos rfl]
  · simp only [Option.isSome_some, if_true]
    rw [mapGet?_mapUpdate, if_pos rfl, hv]
    rfl

lemma fuzzyFold_frame {fz : List SearchResult} {t : Str} (m : SMap SearchResult)
    (h : ∀ r ∈ fz, r.tcode ≠ t) :
    mapGet? (fz.foldl fuzzyMergeStep m) t = mapGet? m t := by
  induction fz generalizing m with
  | nil => rfl
  | cons r rest ih =>
    rw [List.foldl_cons, ih _ (fun x hx => h x (List.mem_cons_of_mem r hx)),
      fuzzyStep_frame (h r (List.mem_cons_self r rest))]

lemma ftsFold_frame {ft : List SearchResult} {t : Str} (m : SMap SearchResult)
    (h : ∀ r ∈ ft, r.tcode ≠ t) :
    mapGet? (ft.foldl ftsMergeStep m) t = mapGet? m t := by
  induction ft generalizing m with
  | nil => rfl
  | cons r rest ih =>
    rw [List.foldl_cons, ih _ (fun x hx => h x (List.mem_cons_of_mem r hx)),
      ftsStep_frame (h r (List.mem_cons_self r rest))]

lemma fuzzy_keeps_one {fz : List SearchResult} {t : Str}
    (hfz : ∀ x ∈ fz, x.relevanceScore ≤ 1) (m : SMap SearchResult)
    (hm : (mapGet? m t).map (fun v => v.relevanceScore) = some 1) :
    (mapGet? (fz.foldl fuzzyMergeStep m) t).map (fun v => v.relevanceScore) = some 1 := by
  induction fz generalizing m with
  | nil => exact hm
  | cons r rest ih =>
    rw [List.foldl_cons]
    refine ih (fun x hx => hfz x (List.mem_cons_of_mem r hx)) _ ?_
    by_cases hrt : r.tcode = t
    · subst hrt
      rcases hv : mapGet? m r.tcode with - | v
      · rw [hv] at hm
        cases hm
      · rw [hv] at hm
        have hv1 : v.relevanceScore = 1 := by
          injection hm
        rw [fuzzyStep_at, hv]
        dsimp only
        rw [if_neg (by rw [hv1]; exact not_lt.mpr (hfz r (List.mem_cons_self r rest)))]
        exact hm
    · rw [fuzzyStep_frame hrt]
      exact hm

lemma fuzzyFold_insert {fz : List SearchResult} {r : SearchResult}
    (hnd : (fz.map SearchResult.tcode).Nodup) (hr : r ∈ fz) (m : SMap SearchResult)
    (hm : mapGet? m r.tcode = none) :
    mapGet? (fz.foldl fuzzyMergeStep m) r.tcode = some r := by
  induction fz generalizing m with
  | nil => cases hr
  | cons x rest ih =>
    have hnd' := List.nodup_cons.mp
      (show (x.tcode :: rest.map SearchResult.tcode).Nodup from hnd)
    rcases List.mem_cons.mp hr with rfl | hr'
    · rw [List.foldl_cons,
        fuzzyFold_frame _ (fun y hy hc =>
          hnd'.1 (by rw [← hc]; exact List.mem_map_of_mem SearchResult.tcode hy)),
        fuzzyStep_at, hm]
    · rw [List.foldl_cons]
      refine ih hnd'.2 hr' _ ?_
      rw [fuzzyStep_frame (show x.tcode ≠ r.tcode from fun hc =>
        hnd'.1 (by rw [hc]; exact List.mem_map_of_mem SearchResult.tcode hr'))]
      exact hm

lemma ftsFold_insert {ft : List SearchResult} {q : SearchResult}
    (hnd : (ft.map SearchResult.tcode).Nodup) (hq : q ∈ ft) (m : SMap SearchResult)
    (hm : mapGet? m q.tcode = none) :
    mapGet? (ft.foldl ftsMergeStep m) q.tcode = some q := by
  induction ft generalizing m with
  | nil => cases hq
  | cons x rest ih =>
    have hnd' := List.nodup_cons.mp
      (show (x.tcode :: rest.map SearchResult.tcode).Nodup from hnd)
    rcases List.mem_cons.mp hq with rfl | hq'
    · rw [List.foldl_cons,
        ftsFold_frame _ (fun y hy hc =>
          hnd'.1 (by rw [← hc]; exact List.mem_map_of_mem SearchResult.tcode hy)),
        ftsStep_at, hm]
    · rw [List.foldl_cons]
      refine ih hnd'.2 hq' _ ?_
      rw [ftsStep_frame (show x.tcode ≠ q.tcode from fun hc =>
        hnd'.1 (by rw [hc]; exact List.mem_map_of_mem SearchResult.tcode hq'))]
      exact hm

lemma ftsFold_boost {ft : List SearchResult} {q v : SearchResult}
    (hnd : (ft.map SearchResult.tcode).Nodup) (hq : q ∈ ft) (m : SMap SearchResult)
    (hm : mapGet? m q.tcode = some v) :
    mapGet? (ft.foldl ftsMergeStep m) q.tcode
      = some { v with relevanceScore := min 1 (v.relevanceScore * 1.2) } := by
  induction ft generalizing m with
  | nil => cases hq
  | cons x rest ih =>
    have hnd' := List.nodup_cons.mp
      (show (x.tcode :: rest.map SearchResult.tcode).Nodup from hnd)
    rcases List.mem_cons.mp hq with rfl | hq'
    · rw [List.foldl_cons,
        ftsFold_frame _ (fun y hy hc =>
          hnd'.1 (by rw [← hc]; exact List.mem_map_of_mem SearchResult.tcode hy)),
        ftsStep_at, hm]
    · rw [List.foldl_cons]
      refine ih hnd'.2 hq' _ ?_
      rw [ftsStep_frame (show x.tcode ≠ q.tcode from fun hc =>
        hnd'.1 (by rw [hc]; exact List.mem_map_of_mem SearchResult.tcode hq'))]
      exact hm

lemma fts_keeps_one {ft : List SearchResult} {t : Str} (m : SMap SearchResult)
    (hm : (mapGet? m t).map (fun v => v.relevanceScore) = some 1) :
    (mapGet? (ft.foldl ftsMergeStep m) t).map (fun v => v.relevanceScore) = some 1 := by
  induction ft generalizing m with
  | nil => exact hm
  | cons r rest ih =>
    rw [List.foldl_cons]
    refine ih _ ?_
    by_cases hrt : r.tcode = t
    · subst hrt
      rcases hv : mapGet? m r.tcode with - | v
      · rw [hv] at hm
        cases hm
      · rw [hv] at hm
        have hv1 : v.relevanceScore = 1 := by
          injection hm
        rw [ftsStep_at, hv]
        dsimp only
        simp only [Option.map_some']
        rw [hv1, one_mul, min_eq_left (by norm_num : (1:ℚ) ≤ 1.2)]
    · rw [ftsStep_frame hrt]
      exact hm

lemma mapSet_head_key {α : Type} {m : SMap α} {k : Str} {x : α} {t0 : Str} {v0 : α}
    (h : m.head? = some (t0, v0)) : ∃ v1, (mapSet m k x).head? = some (t0, v1) := by
  rcases m with - | ⟨q, rest⟩
  · cases h
  · have hq : q = (t0, v0) := by injection h
    subst hq
    unfold mapSet
    by_cases hhas : mapHas ((t0, v0) :: rest) k
    · rw [if_pos hhas]
      by_cases hqk : t0 = k
      · subst hqk
        exact ⟨x, by simp⟩
      · exact ⟨v0, by simp [hqk]⟩
    · rw [if_neg hhas]
      exact ⟨v0, rfl⟩

lemma fuzzyStep_head (m : SMap SearchResult) (r : SearchResult) {t0 : Str}
    {v0 : SearchResult} (h : m.head? = some (t0, v0)) :
    ∃ v1, (fuzzyMergeStep m r).head? = some (t0, v1) := by
  unfold fuzzyMergeStep
  split
  · split
    · split
      · exact mapSet_head_key h
      · exact ⟨v0, h⟩
    · exact ⟨v0, h⟩
  · exact mapSet_head_key h

lemma ftsStep_head (m : SMap SearchResult) (r : SearchResult) {t0 : Str}
    {v0 : SearchResult} (h : m.head? = some (t0, v0)) :
    ∃ v1, (ftsMergeStep m r).head? = some (t0, v1) := by
  unfold ftsMergeStep
  split
  · by_cases hpk : t0 = r.tcode
    · refine ⟨{ v0 with relevanceScore := min 1 (v0.relevanceScore * 1.2) }, ?_⟩
      rw [mapUpdate_head h]
      dsimp only
      rw [if_pos hpk]
    · refine ⟨v0, ?_⟩
      rw [mapUpdate_head h]
      dsimp only
      rw [if_neg hpk]
  · exact mapSet_head_key h

lemma fuzzyFold_head (fz : List SearchResult) {t0 : Str} {v0 : SearchResult}
    (m : SMap SearchResult) (h : m.head? = some (t0, v0)) :
    ∃ v1, (fz.foldl fuzzyMergeStep m).head? = some (t0, v1) := by
  induction fz generalizing m v0 with
  | nil => exact ⟨v0, h⟩
  | cons r rest ih =>
    rw [List.foldl_cons]
    obtain ⟨w, hw⟩ := fuzzyStep_head m r h
    exact ih _ hw

lemma ftsFold_head (ft : List SearchResult) {t0 : Str} {v0 : SearchResult}
    (m : SMap SearchResult) (h : m.head? = some (t0, v0)) :
    ∃ v1, (ft.foldl ftsMergeStep m).head? = some (t0, v1) := by
  induction ft generalizing m v0 with
  | nil => exact ⟨v0, h⟩
  | cons r rest ih =>
    rw [List.foldl_cons]
    obtain ⟨w, hw⟩ := ftsStep_head m r h
    exact ih _ hw

lemma keyedBy_mapUpdate {α : Type} {key : α → Str} {m : SMap α} {k : Str} {f : α → α}
    (hkey : KeyedBy key m) (hf : ∀ v, key (f v) = key v) :
    KeyedBy key (mapUpdate m k f) := by
  intro p hp
  unfold mapUpdate at hp
  rcases List.mem_map.mp hp with ⟨q, hq, rfl⟩
  by_cases hqk : q.1 = k
  · rw [if_pos hqk]
    dsimp only
    rw [hf]
    exact hkey q hq
  · rw [if_neg hqk]
    exact hkey q hq

lemma keyedBy_fuzzyStep (m : SMap SearchResult) (r : SearchResult)
    (hkey : KeyedBy SearchResult.tcode m) :
    KeyedBy SearchResult.tcode (fuzzyMergeStep m r) := by
  unfold fuzzyMergeStep
  split
  · split
    · split
      · exact keyedBy_mapSet hkey r
      · exact hkey
    · exact hkey
  · exact keyedBy_mapSet hkey r

lemma keyedBy_ftsStep (m : SMap SearchResult) (r : SearchResult)
    (hkey : KeyedBy SearchResult.tcode m) :
    KeyedBy SearchResult.tcode (ftsMergeStep m r) := by
  unfold ftsMergeStep
  split
  · exact keyedBy_mapUpdate hkey (fun v => rfl)
  · exact keyedBy_mapSet hkey r

lemma keyedBy_fuzzyFold (fz : List SearchResult) (m : SMap SearchResult)
    (h : KeyedBy SearchResult.tcode m) :
    KeyedBy SearchResult.tcode (fz.foldl fuzzyMergeStep m) := by
  induction fz generalizing m with
  | nil => exact h
  | cons r rest ih =>
    rw [List.foldl_cons]
    exact ih _ (keyedBy_fuzzyStep m r h)

lemma keyedBy_ftsFold (ft : List SearchResult) (m : SMap SearchResult)
    (h : KeyedBy SearchResult.tcode m) :
    KeyedBy SearchResult.tcode (ft.foldl ftsMergeStep m) := by
  induction ft generalizing m with
  | nil => exact h
  | cons r rest ih =>
    rw [List.foldl_cons]
    exact ih _ (keyedBy_ftsStep m r h)

lemma values_fuzzyStep {m : SMap SearchResult} {r v : SearchResult}
    (h : v ∈ mapValues (fuzzyMergeStep m r)) : v ∈ mapValues m ∨ v = r := by
  unfold fuzzyMergeStep at h
  split at h
  · split at h
    · split at h
      · rcases mem_values_mapSet h with h' | h'
        · exact Or.inr h'
        · exact Or.inl h'
      · exact Or.inl h
    · exact Or.inl h
  · rcases mem_values_mapSet h with h' | h'
    · exact Or.inr h'
    · exact Or.inl h'

lemma values_ftsStep {m : SMap SearchResult} {r v : SearchResult}
    (h : v ∈ mapValues (ftsMergeStep m r)) :
    v ∈ mapValues m ∨ v = r
      ∨ ∃ w ∈ mapValues m, v = { w with relevanceScore := min 1 (w.relevanceScore * 1.2) } := by
  unfold ftsMergeStep at h
  split at h
  · rcases mem_values_mapUpdate h with h' | ⟨w, hw, rfl⟩
    · exact Or.inl h'
    · exact Or.inr (Or.inr ⟨w, hw, rfl⟩)
  · rcases mem_values_mapSet h with h' | h'
    · exact Or.inr (Or.inl h')
    · exact Or.inl h'

lemma values_le_one_fuzzyFold {fz : List SearchResult}
    (hfz : ∀ x ∈ fz, x.relevanceScore ≤ 1) (m : SMap SearchResult)
    (hm : ∀ v ∈ mapValues m, v.relevanceScore ≤ 1) :
    ∀ v ∈ mapValues (fz.foldl fuzzyMergeStep m), v.relevanceScore ≤ 1 := by
  induction fz generalizing m with
  | nil => exact hm
  | cons r rest ih =>
    rw [List.foldl_cons]
    refine ih (fun x hx => hfz x (List.mem_cons_of_mem r hx)) _ ?_
    intro v hv
    rcases values_fuzzyStep hv with h' | rfl
    · exact hm v h'
    · exact hfz _ (List.mem_cons_self _ _)

lemma values_le_one_ftsFold {ft : List SearchResult}
    (hft : ∀ x ∈ ft, x.relevanceScore ≤ 1) (m : SMap SearchResult)
    (hm : ∀ v ∈ mapValues m, v.relevanceScore ≤ 1) :
    ∀ v ∈ mapValues (ft.foldl ftsMergeStep m), v.relevanceScore ≤ 1 := by
  induction ft generalizing m with
  | nil => exact hm
  | cons r rest ih =>
    rw [List.foldl_cons]
    refine ih (fun x hx => hft x (List.mem_cons_of_mem r hx)) _ ?_
    intro v hv
    rcases values_ftsStep hv with h' | rfl | ⟨w, hw, rfl⟩
    · exact hm v h'
    · exact hft _ (List.mem_cons_self _ _)
    · exact min_le_left _ _

lemma fuzzyScore_le_one (t q : Str) : fuzzyScore t q ≤ 1 := by
  unfold fuzzyScore
  dsimp only
  refine max_le (by norm_num) ?_
  split
  · exact le_refl 1
  · split
    · have h2 : (0:ℚ) ≤ ((t.length - q.length : ℕ) : ℚ) * 0.02 := by positivity
      linarith
    · split
      · have h2 : (0:ℚ) ≤ ((t.length - q.length : ℕ) : ℚ) * 0.02 := by positivity
        linarith
      · norm_num

lemma fuzzyOut_le_one (catalog : List CatalogEntry) (q : Str)
    (modules : Option (List Str)) (inc : Bool) :
    ∀ r ∈ executeFuzzySearch catalog q modules inc, r.relevanceScore ≤ 1 := by
  intro r hr
  simp only [executeFuzzySearch, List.mem_map] at hr
  rcases hr with ⟨e, he, rfl⟩
  exact fuzzyScore_le_one _ _

lemma fracScore_le_one {a b : ℕ} (hab : a ≤ b) (hb : 0 < b) :
    ((a:ℚ) / (b:ℚ)) * 0.8 ≤ 1 := by
  have h1 : (a:ℚ) / (b:ℚ) ≤ 1 := by
    rw [div_le_one (by exact_mod_cast hb)]
    exact_mod_cast hab
  have h0 : (0:ℚ) ≤ (a:ℚ) / (b:ℚ) := by positivity
  nlinarith

lemma ftsOut_le_one (catalog : List CatalogEntry) (q : Str)
    (modules : Option (List Str)) (inc : Bool) :
    ∀ r ∈ executeFullTextSearch catalog q modules inc, r.relevanceScore ≤ 1 := by
  intro r hr
  simp only [executeFullTextSearch] at hr
  split at hr
  · exact absurd hr (List.not_mem_nil r)
  · rename_i hne
    rw [List.mem_map] at hr
    rcases hr with ⟨e, he, rfl⟩
    dsimp only
    have hpos : 0 < (((wordsS q).filter (fun w => 2 < w.length)).map lowerS).length := by
      rcases hws : ((wordsS q).filter (fun w => 2 < w.length)).map lowerS with - | ⟨a, l⟩
      · rw [hws] at hne
        exact absurd rfl hne
      · rw [hws]
        simp
    exact max_le (by norm_num) (fracScore_le_one (List.length_filter_le _ _) hpos)

lemma mapSet_isSome {α : Type} {m : SMap α} {t : Str} (k : Str) (v : α)
    (h : (mapGet? m t).isSome) : (mapGet? (mapSet m k v) t).isSome := by
  rw [mapGet?_mapSet]
  by_cases htk : t = k
  · rw [if_pos htk]
    rfl
  · rw [if_neg htk]
    exact h

lemma setSlots_isSome_mono {α : Type} {key : α → Str} {rs : List α} {t : Str}
    (init : SMap α) (h : (mapGet? init t).isSome) :
    (mapGet? (setSlots init key rs) t).isSome := by
  induction rs generalizing init with
  | nil => exact h
  | cons r rest ih =>
    rw [setSlots_cons]
    exact ih _ (mapSet_isSome _ _ h)

lemma setSlots_isSome {α : Type} {key : α → Str} {rs : List α} {w : α}
    (init : SMap α) (hw : w ∈ rs) :
    (mapGet? (setSlots init key rs) (key w)).isSome := by
  induction rs generalizing init with
  | nil => cases hw
  | cons r rest ih =>
    rw [setSlots_cons]
    rcases List.mem_cons.mp hw with rfl | hw'
    · refine setSlots_isSome_mono _ ?_
      rw [mapGet?_mapSet, if_pos rfl]
      rfl
    · exact ih _ hw'

lemma filter_eq_nil_of {α : Type} {p : α → Bool} {l : List α}
    (h : ∀ x ∈ l, p x = false) : l.filter p = [] := by
  induction l with
  | nil => rfl
  | cons x rest ih =>
    rw [List.filter_cons, if_neg (by simp [h x (List.mem_cons_self x rest)])]
    exact ih (fun y hy => h y (List.mem_cons_of_mem x hy))

lemma filter_eq_singleton {α : Type} {l : List α} {p : α → Bool} {a : α}
    (hnd : l.Nodup) (ha : a ∈ l) (hpa : p a = true)
    (huniq : ∀ x ∈ l, p x = true → x = a) : l.filter p = [a] := by
  induction l with
  | nil => cases ha
  | cons x rest ih =>
    have hnd' := List.nodup_cons.mp hnd
    rcases List.mem_cons.mp ha with rfl | ha'
    · rw [List.filter_cons, if_pos hpa]
      have hrest : rest.filter p = [] := filter_eq_nil_of (fun y hy => by
        by_contra hc
        have hy' : p y = true := by
          revert hc
          cases p y <;> simp
        have hya : y = a := huniq y (List.mem_cons_of_mem a hy) hy'
        exact hnd'.1 (hya ▸ hy))
      rw [hrest]
    · have hx : p x = false := by
        by_contra hc
        have hx' : p x = true := by
          revert hc
          cases p x <;> simp
        have hxa : x = a := huniq x (List.mem_cons_self x rest) hx'
        exact hnd'.1 (hxa ▸ ha')
      rw [List.filter_cons, if_neg (by simp [hx])]
      exact ih hnd'.2 ha' (fun y hy hpy => huniq y (List.mem_cons_of_mem x hy) hpy)

lemma exactSearch_singleton {catalog : List CatalogEntry} {q : Str} {e : CatalogEntry}
    (hnd : (catalog.map (fun x => lowerS x.tcode)).Nodup) (he : e ∈ catalog)
    (hci : ciEq e.tcode (upperS q) = true) (hdep : e.isDeprecated = false) :
    executeExactSearch catalog q none false
      = [{ tcode := e.tcode, program := e.program,
           description := jsOrStr e.description e.descriptionEnriched,
           module := e.module, relevanceScore := 1,
           matchType := MatchType.exactM, isDeprecated := e.isDeprecated }] := by
  have hfil : catalog.filter
      (fun x => ciEq x.tcode (upperS q) && moduleOK none x && deprecatedOK false x) = [e] := by
    refine filter_eq_singleton (List.Nodup.of_map _ hnd) he ?_ ?_
    · simp [hci, moduleOK, deprecatedOK, hdep]
    · intro x hx hpx
      simp only [Bool.and_eq_true] at hpx
      have hcx : lowerS x.tcode = lowerS (upperS q) := by
        have h1 := hpx.1.1
        simp only [ciEq] at h1
        exact eq_of_beq h1
      have hce : lowerS e.tcode = lowerS (upperS q) := by
        have h1 := hci
        simp only [ciEq] at h1
        exact eq_of_beq h1
      exact List.inj_on_of_nodup_map hnd hx he (hcx.trans hce.symm)
  unfold executeExactSearch
  dsimp only
  rw [hfil]
  rfl

lemma sortByRelevDesc_head_max {l : List SearchResult} {a : SearchResult}
    (h : l.head? = some a) (hmax : ∀ x ∈ l, relevGe a x) :
    (sortByRelevDesc l).head? = some a := by
  rcases l with - | ⟨b, rest⟩
  · cases h
  · have hb : b = a := by injection h
    subst hb
    show (List.orderedInsert relevGe b (List.insertionSort relevGe rest)).head? = some b
    rcases hs : List.insertionSort relevGe rest with - | ⟨c, cs⟩
    · rfl
    · have hc : c ∈ rest := by
        have hcm : c ∈ List.insertionSort relevGe rest := by
          rw [hs]
          exact List.mem_cons_self c cs
        exact (List.mem_insertionSort relevGe).mp hcm
      show (if relevGe b c then b :: c :: cs else c :: List.orderedInsert relevGe b cs).head?
        = some b
      rw [if_pos (hmax c (List.mem_cons_of_mem b hc))]
      rfl

lemma take_head_pos {α : Type} {l : List α} {n : ℕ} (hn : 1 ≤ n) :
    (l.take n).head? = l.head? := by
  rcases l with - | ⟨a, l⟩
  · simp
  · rcases n with - | n
    · exact absurd hn (by omega)
    · rfl

lemma hybrid_core (r0 : SearchResult) (fz ft : List SearchResult)
    (hfz : ∀ x ∈ fz, x.relevanceScore ≤ 1) (hft : ∀ x ∈ ft, x.relevanceScore ≤ 1) :
    ∃ v1, (sortByRelevDesc (mapValues (mergeHybrid [r0] fz ft))).head? = some v1
      ∧ v1.tcode = r0.tcode ∧ v1.relevanceScore = 1 := by
  have hm0 : mergeHybrid [r0] fz ft
      = ft.foldl ftsMergeStep (fz.foldl fuzzyMergeStep
          [(r0.tcode, { r0 with relevanceScore := (1:ℚ) })]) := rfl
  rw [hm0]
  have h0head : ([(r0.tcode, { r0 with relevanceScore := (1:ℚ) })] : SMap SearchResult).head?
      = some (r0.tcode, { r0 with relevanceScore := (1:ℚ) }) := rfl
  obtain ⟨w1, h1⟩ := fuzzyFold_head fz _ h0head
  obtain ⟨w2, h2⟩ := ftsFold_head ft _ h1
  have hget1 : (mapGet? (fz.foldl fuzzyMergeStep
      [(r0.tcode, { r0 with relevanceScore := (1:ℚ) })]) r0.tcode).map
      (fun v => v.relevanceScore) = some 1 := by
    apply fuzzy_keeps_one hfz
    rw [mapGet?_cons, if_pos rfl]
    rfl
  have hget2 : (mapGet? (ft.foldl ftsMergeStep (fz.foldl fuzzyMergeStep
      [(r0.tcode, { r0 with relevanceScore := (1:ℚ) })])) r0.tcode).map
      (fun v => v.relevanceScore) = some 1 := fts_keeps_one _ hget1
  have hw2get : mapGet? (ft.foldl ftsMergeStep (fz.foldl fuzzyMergeStep
      [(r0.tcode, { r0 with relevanceScore := (1:ℚ) })])) r0.tcode = some w2 :=
    get_head h2
  have hw2rs : w2.relevanceScore = 1 := by
    rw [hw2get] at hget2
    simp only [Option.map_some'] at hget2
    exact Option.some.inj hget2
  have hkey0 : KeyedBy SearchResult.tcode
      ([(r0.tcode, { r0 with relevanceScore := (1:ℚ) })] : SMap SearchResult) := by
    intro p hp
    rcases List.mem_singleton.mp hp with rfl
    rfl
  have hkey2 := keyedBy_ftsFold ft _ (keyedBy_fuzzyFold fz _ hkey0)
  have hw2t : w2.tcode = r0.tcode :=
    (hkey2 (r0.tcode, w2) (List.mem_of_mem_head? (Option.mem_def.mpr h2))).symm
  have hv0 : ∀ v ∈ mapValues
      ([(r0.tcode, { r0 with relevanceScore := (1:ℚ) })] : SMap SearchResult),
      v.relevanceScore ≤ 1 := by
    intro v hv
    rcases List.mem_singleton.mp hv with rfl
    exact le_refl 1
  have hvals := values_le_one_ftsFold hft _ (values_le_one_fuzzyFold hfz _ hv0)
  have hvhead : (mapValues (ft.foldl ftsMergeStep (fz.foldl fuzzyMergeStep
      [(r0.tcode, { r0 with relevanceScore := (1:ℚ) })]))).head? = some w2 := by
    unfold mapValues
    rw [List.head?_map, h2]
    rfl
  have hsort := sortByRelevDesc_head_max hvhead (fun x hx => by
    show x.relevanceScore ≤ w2.relevanceScore
    rw [hw2rs]
    exact hvals x hx)
  exact ⟨w2, hsort, hw2t, hw2rs⟩

/-- Claim C6 (amended): in `hybridSearch`'s merge, an exact match always
wins the slot for its identifier with relevanceScore 1.0 (it is never
displaced by fuzzy results scoring at most 1, and the full-text boost
leaves it at 1.0); an identifier found only by the fuzzy strategy keeps
its fuzzy result; an identifier found only by the full-text strategy
keeps its full-text result; but an identifier found by both fuzzy and
full-text keeps the *fuzzy* value with its score multiplied by 1.2 and
capped at 1.0 — the full-text score itself is discarded, so the highest
score across strategies does not win the slot.  Consequently, over a
catalog without case-insensitive duplicate identifiers, an
exact-identifier query returns that identifier first, if present and
non-deprecated, with relevanceScore 1.0. -/
theorem C6_hybrid_merge_amended :
    (∀ (ex fz ft : List SearchResult) (r : SearchResult), r ∈ ex →
        (∀ x ∈ fz, x.relevanceScore ≤ 1) →
        (mapGet? (mergeHybrid ex fz ft) r.tcode).map (fun v => v.relevanceScore) = some 1)
    ∧ (∀ (ex fz ft : List SearchResult) (r : SearchResult),
        (∀ x ∈ ex, x.tcode ≠ r.tcode) → (fz.map SearchResult.tcode).Nodup → r ∈ fz →
        (∀ q ∈ ft, q.tcode ≠ r.tcode) →
        mapGet? (mergeHybrid ex fz ft) r.tcode = some r)
    ∧ (∀ (ex fz ft : List SearchResult) (q : SearchResult),
        (∀ x ∈ ex, x.tcode ≠ q.tcode) → (∀ x ∈ fz, x.tcode ≠ q.tcode) →
        (ft.map SearchResult.tcode).Nodup → q ∈ ft →
        mapGet? (mergeHybrid ex fz ft) q.tcode = some q)
    ∧ (∀ (ex fz ft : List SearchResult) (r q : SearchResult),
        (∀ x ∈ ex, x.tcode ≠ r.tcode) → (fz.map SearchResult.tcode).Nodup → r ∈ fz →
        (ft.map SearchResult.tcode).Nodup → q ∈ ft → q.tcode = r.tcode →
        mapGet? (mergeHybrid ex fz ft) r.tcode
          = some { r with relevanceScore := min 1 (r.relevanceScore * 1.2) })
    ∧ (∀ (catalog : List CatalogEntry) (query : Str) (limit : ℕ) (e : CatalogEntry),
        (catalog.map (fun x => lowerS x.tcode)).Nodup → e ∈ catalog →
        ciEq e.tcode (upperS (lowerS (trimS query))) = true → e.isDeprecated = false →
        1 ≤ limit →
        ∃ v1, (hybridSearch catalog query none limit false).head? = some v1
          ∧ v1.tcode = e.tcode ∧ v1.relevanceScore = 1) := by
  refine ⟨?_, ?_, ?_, ?_, ?_⟩
  · intro ex fz ft r hr hfz
    have hsome : (mapGet? (setSlots [] SearchResult.tcode
        (ex.map (fun x => { x with relevanceScore := (1:ℚ) })))
        (SearchResult.tcode { r with relevanceScore := (1:ℚ) })).isSome :=
      setSlots_isSome _ (List.mem_map_of_mem _ hr)
    obtain ⟨z, hz⟩ := Option.isSome_iff_exists.mp hsome
    rcases setSlots_src _ hz with ⟨hzm, -⟩ | hcontra
    · have hz1 : z.relevanceScore = 1 := by
        rcases List.mem_map.mp hzm with ⟨x, -, rfl⟩
        rfl
      dsimp only [mergeHybrid]
      apply fts_keeps_one
      apply fuzzy_keeps_one hfz
      rw [hz]
      simp only [Option.map_some', hz1]
    · simp [mapGet?] at hcontra
  · intro ex fz ft r hex hnd hr hft
    have hkeys : ∀ x ∈ ex.map (fun y => { y with relevanceScore := (1:ℚ) }),
        SearchResult.tcode x ≠ r.tcode := by
      intro x hx
      rcases List.mem_map.mp hx with ⟨y, hy, rfl⟩
      exact hex y hy
    dsimp only [mergeHybrid]
    rw [ftsFold_frame _ hft]
    apply fuzzyFold_insert hnd hr
    rw [setSlots_frame _ hkeys]
    rfl
  · intro ex fz ft q hex hfz hnd hq
    have hkeys : ∀ x ∈ ex.map (fun y => { y with relevanceScore := (1:ℚ) }),
        SearchResult.tcode x ≠ q.tcode := by
      intro x hx
      rcases List.mem_map.mp hx with ⟨y, hy, rfl⟩
      exact hex y hy
    dsimp only [mergeHybrid]
    apply ftsFold_insert hnd hq
    rw [fuzzyFold_frame _ hfz, setSlots_frame _ hkeys]
    rfl
  · intro ex fz ft r q hex hndf hr hndt hq hqt
    have hkeys : ∀ x ∈ ex.map (fun y => { y with relevanceScore := (1:ℚ) }),
        SearchResult.tcode x ≠ r.tcode := by
      intro x hx
      rcases List.mem_map.mp hx with ⟨y, hy, rfl⟩
      exact hex y hy
    have h1 : mapGet? (fz.foldl fuzzyMergeStep (setSlots [] SearchResult.tcode
        (ex.map (fun y => { y with relevanceScore := (1:ℚ) })))) r.tcode = some r := by
      apply fuzzyFold_insert hndf hr
      rw [setSlots_frame _ hkeys]
      rfl
    have h2 := ftsFold_boost hndt hq _ (by rw [hqt]; exact h1)
    rw [hqt] at h2
    dsimp only [mergeHybrid]
    exact h2
  · intro catalog query limit e hnd he hci hdep hlim
    have hex := exactSearch_singleton hnd he hci hdep
    have hh : hybridSearch catalog query none limit false
        = (sortByRelevDesc (mapValues (mergeHybrid
            (executeExactSearch catalog (lowerS (trimS query)) none false)
            (executeFuzzySearch catalog (lowerS (trimS query)) none false)
            (executeFullTextSearch catalog query none false)))).take limit := rfl
    rw [hh, hex]
    obtain ⟨v1, hv1, hvt, hvr⟩ := hybrid_core
      { tcode := e.tcode, program := e.program,
        description := jsOrStr e.description e.descriptionEnriched,
        module := e.module, relevanceScore := 1,
        matchType := MatchType.exactM, isDeprecated := e.isDeprecated }
      (executeFuzzySearch catalog (lowerS (trimS query)) none false)
      (executeFullTextSearch catalog query none false)
      (fuzzyOut_le_one catalog (lowerS (trimS query)) none false)
      (ftsOut_le_one catalog query none false)
    refine ⟨v1, ?_, hvt, hvr⟩
    rw [take_head_pos hlim]
    exact hv1

def c6rE : SearchResult :=
  { tcode := "FB50".data, relevanceScore := 1, matchType := MatchType.exactM }

def c6rF : SearchResult :=
  { tcode := "ME21".data, relevanceScore := 1/2, matchType := MatchType.fuzzyM }

def c6rT : SearchResult :=
  { tcode := "ME21".data, relevanceScore := 4/5, matchType := MatchType.fulltextM }

def c6rT2 : SearchResult :=
  { tcode := "VA01".data, relevanceScore := 4/5, matchType := MatchType.fulltextM }

def c6CatE : CatalogEntry := { tcode := "ME21N".data }

theorem C6_hybrid_merge_witness :
    ((mapGet? (mergeHybrid [c6rE] [] []) c6rE.tcode).map
        (fun v => v.relevanceScore) = some 1)
    ∧ mapGet? (mergeHybrid [] [c6rF] []) c6rF.tcode = some c6rF
    ∧ mapGet? (mergeHybrid [] [] [c6rT2]) c6rT2.tcode = some c6rT2
    ∧ mapGet? (mergeHybrid [] [c6rF] [c6rT]) c6rF.tcode
        = some { c6rF with relevanceScore := min 1 (c6rF.relevanceScore * 1.2) }
    ∧ ∃ v1, (hybridSearch [c6CatE] "me21n".data none 1 false).head? = some v1
        ∧ v1.tcode = c6CatE.tcode ∧ v1.relevanceScore = 1 := by
  obtain ⟨h1, h2, h3, h4, h5⟩ := C6_hybrid_merge_amended
  exact ⟨h1 [c6rE] [] [] c6rE (by decide) (by decide),
    h2 [] [c6rF] [] c6rF (by decide) (by decide) (by decide) (by decide),
    h3 [] [] [c6rT2] c6rT2 (by decide) (by decide) (by decide) (by decide),
    h4 [] [c6rF] [c6rT] c6rF c6rT (by decide) (by decide) (by decide) (by decide)
      (by decide) (by decide),
    h5 [c6CatE] ("me21n".data) 1 c6CatE (by decide) (by decide) (by decide)
      (by decide) (by decide)⟩

def c6Deep : CatalogEntry := { tcode := "XABCDEFGHIJKLMNOPQRS".data }

/-- Counterexample to C6 as stated: the full-text strategy scores
`c6Deep` at 0.8 for the query `abc`, the fuzzy strategy at 0.36, so under
"the highest score across strategies wins, boosted 20% capped at 1.0" the
merged score would be `min 1 (0.8 * 1.2) = 0.96`; the pipeline instead
keeps the *fuzzy* score boosted by 20% (`0.36 * 1.2 = 0.432 = 54/125`),
discarding the higher full-text score entirely. -/
theorem C6_counterexample_fulltext_score_discarded :
    ((hybridSearch [c6Deep] "abc".data none 5 false).map
        (fun r => r.relevanceScore) = [54/125])
    ∧ (executeFullTextSearch [c6Deep] "abc".data none false).map
        (fun r => r.relevanceScore) = [4/5]
    ∧ (executeFuzzySearch [c6Deep] "abc".data none false).map
        (fun r => r.relevanceScore) = [9/25]
    ∧ ¬((54:ℚ)/125 = 4/5) ∧ (54:ℚ)/125 < 4/5
    ∧ ¬((54:ℚ)/125 = min 1 ((4:ℚ)/5 * 1.2)) := by
  decide

/- ## C10: the post-fusion length bound -/

lemma length_sortByConfDesc (l : List AISearchResult) :
    (sortByConfDesc l).length = l.length :=
  (List.perm_insertionSort confGe l).length_eq

lemma length_createDefaultResults (c : List SearchResult) :
    (createDefaultResults c).length = c.length := by
  simp [createDefaultResults]

lemma length_rerankWithGPT (c : List SearchResult) (g : GptOutcome) :
    (rerankWithGPT c g).length = c.length := by
  cases g with
  | none => simp [rerankWithGPT, createDefaultResults]
  | some g2 =>
    cases g2 with
    | none => simp [rerankWithGPT, createDefaultResults]
    | some items => simp [rerankWithGPT]

lemma length_applyTermBoost (q : Str) (l : List AISearchResult) :
    (applyTermBoost q l).length = l.length := by
  simp [applyTermBoost]

lemma length_applyJudgments (l : List AISearchResult) (j : List JudgeVerdict) :
    (applyJudgments l j).length = l.length := by
  simp [applyJudgments]

lemma length_validateSearchResults (b : Bool) (l : List AISearchResult)
    (j : Option (List JudgeVerdict)) :
    (validateSearchResults b l j).length = l.length := by
  unfold validateSearchResults
  split
  · rfl
  · split
    · rfl
    · split
      · rfl
      · exact length_applyJudgments _ _

lemma length_applyMolgaBoostAI (md : List MolgaEntry) (l : List AISearchResult) (q : Str) :
    ((applyMolgaBoostAI md l q).1).length = l.length := by
  unfold applyMolgaBoostAI
  split
  · rfl
  · split
    · rfl
    · simp

lemma length_applyFeedbackBoostToAI (bo : Str → ℚ) (l : List AISearchResult) :
    (applyFeedbackBoostToAI bo l).length = l.length := by
  unfold applyFeedbackBoostToAI
  split
  · rfl
  · simp

lemma length_validateAndFetchTCodes (catalog : List CatalogEntry) (tcodes : List Str) :
    (validateAndFetchTCodes catalog tcodes).length ≤ 10 := by
  unfold validateAndFetchTCodes
  split
  · simp
  · rw [List.length_map]
    exact List.length_take_le _ _

lemma length_enhanceWithWebSearch (catalog : List CatalogEntry) (web : Str)
    (l : List AISearchResult) (th : ℚ) :
    ((enhanceWithWebSearch catalog web l th).1).length ≤ l.length + 10 := by
  unfold enhanceWithWebSearch
  dsimp only
  split
  · exact Nat.le_add_right _ _
  · split
    · exact Nat.le_add_right _ _
    · split
      · exact Nat.le_add_right _ _
      · dsimp only
        rw [length_sortByConfDesc, length_mapValues]
        have h1 : (fillSlots (setSlots [] AISearchResult.tcode
            (validateAndFetchTCodes catalog (extractTCodes web))) AISearchResult.tcode l).length
            ≤ (setSlots [] AISearchResult.tcode
                (validateAndFetchTCodes catalog (extractTCodes web))).length + l.length :=
          length_fillSlots _
        have h2 : (setSlots [] AISearchResult.tcode
            (validateAndFetchTCodes catalog (extractTCodes web))).length
            ≤ ([] : SMap AISearchResult).length
              + (validateAndFetchTCodes catalog (extractTCodes web)).length :=
          length_setSlots _
        have h3 := length_validateAndFetchTCodes catalog (extractTCodes web)
        simp only [List.length_nil] at h2
        omega

lemma length_generateAIFallbackSuggestions (k : Bool) (s : List GeneratedTCode)
    (v : List ValidationResult) (limit : ℕ) :
    (generateAIFallbackSuggestions k s v limit).length ≤ limit := by
  unfold generateAIFallbackSuggestions
  split
  · simp
  · split
    · simp
    · exact List.length_take_le _ _

lemma length_results5 (catalog : List CatalogEntry) (web : Str)
    (r4 : List AISearchResult) (th : ℚ) :
    (if (enhanceWithWebSearch catalog web r4 th).2
      then sortByConfDesc (enhanceWithWebSearch catalog web r4 th).1
      else (enhanceWithWebSearch catalog web r4 th).1).length ≤ r4.length + 10 := by
  split
  · rw [length_sortByConfDesc]
    exact length_enhanceWithWebSearch _ _ _ _
  · exact length_enhanceWithWebSearch _ _ _ _

lemma length_tail_stages (bo : Str → ℚ) (md : List MolgaEntry) (q : Str)
    (l : List AISearchResult) :
    (sortByConfDesc (applyFeedbackBoostToAI bo
      (sortByConfDesc ((applyMolgaBoostAI md l q).1)))).length = l.length := by
  rw [length_sortByConfDesc, length_applyFeedbackBoostToAI, length_sortByConfDesc,
    length_applyMolgaBoostAI]

lemma length_r4 (je : Bool) (j : Option (List JudgeVerdict)) (g : GptOutcome)
    (q : Str) (cands : List SearchResult) :
    (sortByConfDesc (validateSearchResults je
      (sortByConfDesc (applyTermBoost q (rerankWithGPT cands g))) j)).length
      = cands.length := by
  rw [length_sortByConfDesc, length_validateSearchResults, length_sortByConfDesc,
    length_applyTermBoost, length_rerankWithGPT]

def c10RowA : SemRow := { entry := { tcode := "FB50".data }, similarity := 1/2 }

def c10RowB : SemRow := { entry := { tcode := "ME21N".data }, similarity := 1/2 }

/-- A non-cached environment whose fusion yields two candidates for
`limit = 1`: one from the direct semantic search, one from the
expanded-query semantic search. -/
def c10Wide : PipelineEnv :=
  { openaiKey := true, expandedQuery := "zz zz".data,
    directRows := [c10RowA], expandedRows := [c10RowB] }

/-- Claim C10 (implicit): a non-cached `executeAISearch(query, limit)`
call is never truncated back to `limit` after candidate fusion — every
stage past fusion preserves length except the web merge, which can add at
most the 10 web-validated hits, so the returned list's length is bounded
by `2·limit + 10`; and the bound `limit` itself does not hold: a concrete
non-cached call with `limit = 1` returns 2 results. -/
theorem C10_fused_length_bound :
    (∀ (env : PipelineEnv) (q : Str) (limit : ℕ) (rs : List AISearchResult) (wb : Bool),
        env.cacheHit = none →
        executeAISearch env q limit = .ok (rs, wb) →
        rs.length ≤ 2 * limit + 10)
    ∧ ((executeAISearch c10Wide "zz".data 1).toOption.map (fun p => p.1.length) = some 2
        ∧ ¬(2 ≤ 1)) := by
  constructor
  · intro env q limit rs wb hcache h
    unfold executeAISearch at h
    rw [hcache] at h
    split at h
    · exact absurd h (by simp)
    · dsimp only at h
      split at h
      all_goals split at h
      all_goals rcases h with ⟨⟩
      all_goals first
        | exact le_trans (length_generateAIFallbackSuggestions _ _ _ _) (by omega)
        | (rw [length_tail_stages]
           refine le_trans (length_results5 _ _ _ _) ?_
           rw [length_r4]
           exact le_trans (Nat.add_le_add_right (List.length_take_le _ _) 10) (by omega))
  · exact ⟨by decide, by decide⟩

/-- A bare non-cached environment: no catalog rows, no external services. -/
def c10Bare : PipelineEnv := { openaiKey := true }

theorem C10_fused_length_witness :
    executeAISearch c10Bare "vendor".data 3 = .ok ([], false)
    ∧ ([] : List AISearchResult).length ≤ 2 * 3 + 10 :=
  ⟨rfl, C10_fused_length_bound.1 c10Bare "vendor".data 3 [] false rfl rfl⟩

/- ## C1: output invariants of the pipeline -/

/-- The invariant carried by the fused candidate list: clamped scores,
case-insensitively duplicate-free identifiers, identifiers drawn from the
catalog. -/
def candInv (catalog : List CatalogEntry) (cs : List SearchResult) : Prop :=
  (∀ r ∈ cs, 0 ≤ r.relevanceScore ∧ r.relevanceScore ≤ 1)
  ∧ (cs.map (fun r => lowerS r.tcode)).Nodup
  ∧ ∀ r ∈ cs, ∃ e ∈ catalog, r.tcode = e.tcode

/-- The invariant carried by the result list through the AI stages. -/
def aiInv (catalog : List CatalogEntry) (rs : List AISearchResult) : Prop :=
  (∀ r ∈ rs, 0 ≤ r.confidence ∧ r.confidence ≤ 1)
  ∧ (rs.map (fun r => lowerS r.tcode)).Nodup
  ∧ ∀ r ∈ rs, ∃ e ∈ catalog, r.tcode = e.tcode

lemma valuesKeys {α : Type} {key : α → Str} {m : SMap α} (hkey : KeyedBy key m) :
    (mapValues m).map key = keysOf m := by
  unfold mapValues keysOf
  rw [List.map_map]
  exact List.map_congr_left (fun p hp => (hkey p hp).symm)

lemma mem_values_fill_set {α : Type} {key : α → Str} {rsA rsB : List α} {v : α}
    (h : v ∈ mapValues (fillSlots (setSlots [] key rsA) key rsB)) :
    v ∈ rsA ∨ v ∈ rsB := by
  obtain ⟨k, hkv⟩ := mem_of_mem_mapValues h
  have hnd : (keysOf (fillSlots (setSlots [] key rsA) key rsB)).Nodup :=
    fillSlots_nodupKeys _ (setSlots_nodupKeys _ (by simp [keysOf]))
  have hget := get_of_mem_keyed hnd hkv
  rcases fillSlots_src _ hget with hm0 | ⟨hmem, -⟩
  · rcases setSlots_src _ hm0 with ⟨hmem, -⟩ | hnil
    · exact Or.inl hmem
    · simp [mapGet?] at hnil
  · exact Or.inr hmem

lemma ciNodup_of_raw {α : Type} {tc : α → Str} {catalog : List CatalogEntry} {rs : List α}
    (hnd : (catalog.map (fun e => lowerS e.tcode)).Nodup)
    (hdom : ∀ r ∈ rs, ∃ e ∈ catalog, tc r = e.tcode)
    (hraw : (rs.map tc).Nodup) :
    (rs.map (fun r => lowerS (tc r))).Nodup := by
  have heq : rs.map (fun r => lowerS (tc r)) = (rs.map tc).map lowerS := by
    rw [List.map_map]
    rfl
  rw [heq]
  refine List.Nodup.map_on ?_ hraw
  intro x hx y hy hxy
  rcases List.mem_map.mp hx with ⟨rx, hrx, rfl⟩
  rcases List.mem_map.mp hy with ⟨ry, hry, rfl⟩
  rcases hdom rx hrx with ⟨ex, hex, hexe⟩
  rcases hdom ry hry with ⟨ey, hey, heye⟩
  rw [hexe, heye] at hxy ⊢
  have hxy2 : (fun e : CatalogEntry => lowerS e.tcode) ex
      = (fun e : CatalogEntry => lowerS e.tcode) ey := hxy
  rw [List.inj_on_of_nodup_map hnd hex hey hxy2]

lemma aiInv_sort {catalog : List CatalogEntry} {l : List AISearchResult}
    (h : aiInv catalog l) : aiInv catalog (sortByConfDesc l) := by
  obtain ⟨h1, h2, h3⟩ := h
  have hperm : List.Perm (sortByConfDesc l) l := List.perm_insertionSort confGe l
  refine ⟨fun r hr => h1 r (hperm.mem_iff.mp hr), ?_,
    fun r hr => h3 r (hperm.mem_iff.mp hr)⟩
  exact ((hperm.map (fun r => lowerS r.tcode)).nodup_iff).mpr h2

lemma aiInv_map_stage {catalog : List CatalogEntry} {l : List AISearchResult}
    {f : AISearchResult → AISearchResult}
    (hf : ∀ x ∈ l, (f x).tcode = x.tcode)
    (hconf : ∀ x ∈ l, 0 ≤ (f x).confidence ∧ (f x).confidence ≤ 1)
    (hinv : aiInv catalog l) : aiInv catalog (l.map f) := by
  obtain ⟨-, hnd, hdom⟩ := hinv
  refine ⟨?_, ?_, ?_⟩
  · intro r hr
    rcases List.mem_map.mp hr with ⟨x, hx, rfl⟩
    exact hconf x hx
  · have heq : (l.map f).map (fun r => lowerS r.tcode) = l.map (fun r => lowerS r.tcode) := by
      rw [List.map_map]
      refine List.map_congr_left (fun x hx => ?_)
      show lowerS (f x).tcode = lowerS x.tcode
      rw [hf x hx]
    rw [heq]
    exact hnd
  · intro r hr
    rcases List.mem_map.mp hr with ⟨x, hx, rfl⟩
    rcases hdom x hx with ⟨e, he, hte⟩
    exact ⟨e, he, by rw [hf x hx, hte]⟩

lemma aiInv_of_cand_map {catalog : List CatalogEntry} {cs : List SearchResult}
    {f : SearchResult → AISearchResult}
    (hf : ∀ x ∈ cs, (f x).tcode = x.tcode)
    (hconf : ∀ x ∈ cs, 0 ≤ (f x).confidence ∧ (f x).confidence ≤ 1)
    (hc : candInv catalog cs) : aiInv catalog (cs.map f) := by
  obtain ⟨-, hnd, hdom⟩ := hc
  refine ⟨?_, ?_, ?_⟩
  · intro r hr
    rcases List.mem_map.mp hr with ⟨x, hx, rfl⟩
    exact hconf x hx
  · have heq : (cs.map f).map (fun r => lowerS r.tcode) = cs.map (fun r => lowerS r.tcode) := by
      rw [List.map_map]
      refine List.map_congr_left (fun x hx => ?_)
      show lowerS (f x).tcode = lowerS x.tcode
      rw [hf x hx]
    rw [heq]
    exact hnd
  · intro r hr
    rcases List.mem_map.mp hr with ⟨x, hx, rfl⟩
    rcases hdom x hx with ⟨e, he, hte⟩
    exact ⟨e, he, by rw [hf x hx, hte]⟩

lemma semantic_inv (k : Bool) (rows : List SemRow) (limit : ℕ) :
    ∀ r ∈ executeSemanticSearch k rows limit,
      ((0 ≤ r.relevanceScore ∧ r.relevanceScore ≤ 1)
        ∧ ∃ row ∈ rows, r.tcode = row.entry.tcode) := by
  intro r hr
  unfold executeSemanticSearch at hr
  split at hr
  · exact absurd hr (List.not_mem_nil r)
  · rcases List.mem_map.mp hr with ⟨row, hrow, rfl⟩
    refine ⟨⟨le_max_left 0 _, max_le (by norm_num) (min_le_left _ _)⟩, row, ?_, rfl⟩
    exact List.mem_of_mem_filter (List.mem_of_mem_take hrow)

lemma semantic_dom {catalog : List CatalogEntry} {rows : List SemRow} (k : Bool) (limit : ℕ)
    (hrows : ∀ row ∈ rows, row.entry ∈ catalog) :
    ∀ r ∈ executeSemanticSearch k rows limit,
      ((0 ≤ r.relevanceScore ∧ r.relevanceScore ≤ 1)
        ∧ ∃ e ∈ catalog, r.tcode = e.tcode) := by
  intro r hr
  rcases semantic_inv k rows limit r hr with ⟨hb, row, hrow, ht⟩
  exact ⟨hb, row.entry, hrows row hrow, ht⟩

lemma fuse_raw_nodup (ex di : List SearchResult) :
    ((fuseCandidates ex di).map (fun r => r.tcode)).Nodup := by
  have hkeyed : KeyedBy SearchResult.tcode
      (fillSlots (setSlots [] SearchResult.tcode ex) SearchResult.tcode di) :=
    fillSlots_keyed _ (setSlots_keyed _ (fun p hp => absurd hp (List.not_mem_nil p)))
  have hnd : (keysOf (fillSlots (setSlots [] SearchResult.tcode ex)
      SearchResult.tcode di)).Nodup :=
    fillSlots_nodupKeys _ (setSlots_nodupKeys _ (by simp [keysOf]))
  show ((mapValues (fillSlots (setSlots [] SearchResult.tcode ex) SearchResult.tcode di)).map
      (fun r => r.tcode)).Nodup
  rw [valuesKeys hkeyed]
  exact hnd

lemma cand_inv_take {catalog : List CatalogEntry} {E D : List SearchResult}
    (hndcat : (catalog.map (fun e => lowerS e.tcode)).Nodup)
    (hE : ∀ r ∈ E, (0 ≤ r.relevanceScore ∧ r.relevanceScore ≤ 1)
      ∧ ∃ e ∈ catalog, r.tcode = e.tcode)
    (hD : ∀ r ∈ D, (0 ≤ r.relevanceScore ∧ r.relevanceScore ≤ 1)
      ∧ ∃ e ∈ catalog, r.tcode = e.tcode)
    (n : ℕ) : candInv catalog ((fuseCandidates E D).take n) := by
  have hmem : ∀ r ∈ (fuseCandidates E D).take n, r ∈ E ∨ r ∈ D := by
    intro r hr
    exact mem_values_fill_set (List.mem_of_mem_take hr)
  refine ⟨?_, ?_, ?_⟩
  · intro r hr
    rcases hmem r hr with h' | h'
    · exact (hE r h').1
    · exact (hD r h').1
  · refine ciNodup_of_raw hndcat (fun r hr => ?_) ?_
    · rcases hmem r hr with h' | h'
      · exact (hE r h').2
      · exact (hD r h').2
    · have hsub : (((fuseCandidates E D).take n).map (fun r => r.tcode)).Sublist
          ((fuseCandidates E D).map (fun r => r.tcode)) :=
        (List.take_sublist n _).map _
      exact List.Nodup.sublist hsub (fuse_raw_nodup E D)
  · intro r hr
    rcases hmem r hr with h' | h'
    · exact (hE r h').2
    · exact (hD r h').2

lemma termRaw_nonneg (terms : List Str) (d t : Str) (init : ℚ) (h : 0 ≤ init) :
    0 ≤ terms.foldl (fun acc term =>
      if strHasInfix term d || strHasInfix term t then acc + 0.05 else acc) init := by
  induction terms generalizing init with
  | nil => exact h
  | cons x rest ih =>
    rw [List.foldl_cons]
    apply ih
    split
    · linarith
    · exact h

lemma termboost_inv {catalog : List CatalogEntry} (q : Str) {l : List AISearchResult}
    (h : aiInv catalog l) : aiInv catalog (applyTermBoost q l) := by
  unfold applyTermBoost
  dsimp only
  refine aiInv_map_stage (fun x hx => rfl) ?_ h
  intro x hx
  have hc := h.1 x hx
  constructor
  · exact le_min (by norm_num)
      (add_nonneg hc.1 (le_min (termRaw_nonneg _ _ _ _ (le_refl 0)) (by norm_num)))
  · exact min_le_left _ _

lemma foldl_mapSet_src {js : List JudgeVerdict} {k : Str} {j : JudgeVerdict}
    (m : SMap JudgeVerdict)
    (h : mapGet? (js.foldl (fun m jj => mapSet m (upperS jj.tcode) jj) m) k = some j) :
    j ∈ js ∨ mapGet? m k = some j := by
  induction js generalizing m with
  | nil => exact Or.inr h
  | cons x rest ih =>
    rw [List.foldl_cons] at h
    rcases ih _ h with hj | hset
    · exact Or.inl (List.mem_cons_of_mem x hj)
    · rw [mapGet?_mapSet] at hset
      by_cases hk : k = upperS x.tcode
      · rw [if_pos hk] at hset
        rcases hset with ⟨⟩
        exact Or.inl (List.mem_cons_self _ _)
      · rw [if_neg hk] at hset
        exact Or.inr hset

lemma judgmentMap_mem {js : List JudgeVerdict} {k : Str} {j : JudgeVerdict}
    (h : mapGet? (judgmentMapOf js) k = some j) : j ∈ js := by
  unfold judgmentMapOf at h
  rcases foldl_mapSet_src [] h with hj | hnil
  · exact hj
  · simp [mapGet?] at hnil

lemma judge_inv {catalog : List CatalogEntry} (je : Bool)
    (judge : Option (List JudgeVerdict))
    (hj : ∀ js, judge = some js →
      ∀ v ∈ js, ∀ c, v.correctedConfidence = some c → 0 ≤ c ∧ c ≤ 1)
    {l : List AISearchResult} (h : aiInv catalog l) :
    aiInv catalog (validateSearchResults je l judge) := by
  unfold validateSearchResults
  split
  · exact h
  · split
    · exact h
    · rcases hjo : judge with - | js
      · exact h
      · show aiInv catalog (applyJudgments l js)
        unfold applyJudgments
        dsimp only
        refine aiInv_map_stage ?_ ?_ h
        · intro x hx
          rcases mapGet? (judgmentMapOf js) (upperS x.tcode) with - | j
          · rfl
          · rfl
        · intro x hx
          have hc := h.1 x hx
          rcases hmg : mapGet? (judgmentMapOf js) (upperS x.tcode) with - | j
          · exact hc
          · dsimp only
            rcases hcc : j.correctedConfidence with - | c
            · exact hc
            · exact hj js hjo j (judgmentMap_mem hmg) c hcc

lemma webres_src (c : List CatalogEntry) (ts : List Str) :
    ∀ r ∈ validateAndFetchTCodes c ts,
      r.confidence = 0.75 ∧ ∃ e ∈ c, r.tcode = e.tcode := by
  intro r hr
  unfold validateAndFetchTCodes at hr
  split at hr
  · exact absurd hr (List.not_mem_nil r)
  · rcases List.mem_map.mp hr with ⟨e, he, rfl⟩
    exact ⟨rfl, e, List.mem_of_mem_filter (List.mem_of_mem_take he), rfl⟩

lemma web_inv {catalog : List CatalogEntry} {web : Str} {l : List AISearchResult} {th : ℚ}
    (hndcat : (catalog.map (fun e => lowerS e.tcode)).Nodup)
    (hinv : aiInv catalog l) :
    aiInv catalog (enhanceWithWebSearch catalog web l th).1 := by
  unfold enhanceWithWebSearch
  dsimp only
  split
  · exact hinv
  · split
    · exact hinv
    · split
      · exact hinv
      · dsimp only
        refine aiInv_sort ⟨?_, ?_, ?_⟩
        · intro v hv
          rcases mem_values_fill_set hv with hw | hl
          · rcases webres_src catalog (extractTCodes web) v hw with ⟨hconf, -⟩
            rw [hconf]
            norm_num
          · exact hinv.1 v hl
        · refine ciNodup_of_raw hndcat (fun v hv => ?_) ?_
          · rcases mem_values_fill_set hv with hw | hl
            · exact (webres_src catalog (extractTCodes web) v hw).2
            · exact hinv.2.2 v hl
          · have hkeyed : KeyedBy AISearchResult.tcode
                (fillSlots (setSlots [] AISearchResult.tcode
                  (validateAndFetchTCodes catalog (extractTCodes web)))
                  AISearchResult.tcode l) :=
              fillSlots_keyed _ (setSlots_keyed _ (fun p hp => absurd hp (List.not_mem_nil p)))
            rw [valuesKeys hkeyed]
            exact fillSlots_nodupKeys _ (setSlots_nodupKeys _ (by simp [keysOf]))
        · intro v hv
          rcases mem_values_fill_set hv with hw | hl
          · exact (webres_src catalog (extractTCodes web) v hw).2
          · exact hinv.2.2 v hl

lemma results5_inv {catalog : List CatalogEntry} {web : Str} {r4 : List AISearchResult}
    {th : ℚ} (hndcat : (catalog.map (fun e => lowerS e.tcode)).Nodup)
    (h : aiInv catalog r4) :
    aiInv catalog (if (enhanceWithWebSearch catalog web r4 th).2
      then sortByConfDesc (enhanceWithWebSearch catalog web r4 th).1
      else (enhanceWithWebSearch catalog web r4 th).1) := by
  split
  · exact aiInv_sort (web_inv hndcat h)
  · exact web_inv hndcat h

lemma molga_inv {catalog : List CatalogEntry} (md : List MolgaEntry) (q : Str)
    {l : List AISearchResult} (h : aiInv catalog l) :
    aiInv catalog ((applyMolgaBoostAI md l q).1) := by
  unfold applyMolgaBoostAI
  split
  · exact h
  · split
    · exact h
    · dsimp only
      refine aiInv_map_stage ?_ ?_ h
      · intro x hx
        rcases extractMolgaFromTcode x.tcode with - | n
        · rfl
        · dsimp only
          split
          · rfl
          · rfl
      · intro x hx
        have hc := h.1 x hx
        rcases extractMolgaFromTcode x.tcode with - | n
        · exact hc
        · dsimp only
          split
          · constructor
            · exact le_min (by norm_num) (mul_nonneg hc.1 (by norm_num))
            · exact le_trans (min_le_left _ _) (by norm_num)
          · constructor
            · exact mul_nonneg hc.1 (by norm_num)
            · linarith [hc.2]

lemma feedback_inv {catalog : List CatalogEntry} {bo : Str → ℚ} (hbo : ∀ t, 0 ≤ bo t)
    {l : List AISearchResult} (h : aiInv catalog l) :
    aiInv catalog (applyFeedbackBoostToAI bo l) := by
  unfold applyFeedbackBoostToAI
  split
  · exact h
  · refine aiInv_map_stage ?_ ?_ h
    · intro x hx
      dsimp only
      split
      · rfl
      · rfl
    · intro x hx
      have hc := h.1 x hx
      dsimp only
      split
      · constructor
        · exact le_min (by norm_num) (mul_nonneg hc.1 (hbo _))
        · exact le_trans (min_le_left _ _) (by norm_num)
      · exact hc

lemma rerank_inv {catalog : List CatalogEntry} {cs : List SearchResult} (g : GptOutcome)
    (hg : ∀ items, g = some (some items) →
      ∀ it ∈ items, ∀ c, it.confidence = some c → 0 ≤ c ∧ c ≤ 1)
    (hc : candInv catalog cs) : aiInv catalog (rerankWithGPT cs g) := by
  have hdefault : aiInv catalog (createDefaultResults cs) := by
    unfold createDefaultResults
    exact aiInv_of_cand_map (fun x hx => rfl) (fun x hx => hc.1 x hx) hc
  rcases g with - | g2
  · exact hdefault
  rcases g2 with - | items
  · exact hdefault
  · unfold rerankWithGPT
    dsimp only
    refine aiInv_of_cand_map (fun x hx => rfl) ?_ hc
    intro x hx
    have hrel := hc.1 x hx
    dsimp only
    rcases hfd : items.find? (fun r => upperS r.tcode == upperS x.tcode) with - | it
    · try rw [hfd]
      exact hrel
    · try rw [hfd]
      show 0 ≤ it.confidence.getD x.relevanceScore
        ∧ it.confidence.getD x.relevanceScore ≤ 1
      rcases hcc : it.confidence with - | c
      · exact hrel
      · exact hg items rfl it (List.mem_of_find?_eq_some hfd) c hcc

lemma fallbackResultOf_tcode {s : GeneratedTCode} {vv : Option ValidationResult}
    {r : AISearchResult} (h : fallbackResultOf s vv = some r) :
    r.tcode = upperS s.tcode := by
  unfold fallbackResultOf at h
  rcases vv with - | v
  · rcases h with ⟨⟩
    rfl
  · dsimp only at h
    by_cases hval : v.isValid
    · rw [if_neg (by simp [hval])] at h
      rcases h with ⟨⟩
      rfl
    · rw [if_pos (by simp [hval])] at h
      cases h

lemma fallbackResultOf_conf {s : GeneratedTCode} {vv : Option ValidationResult}
    {r : AISearchResult} (hs : 0 ≤ s.confidence)
    (hv : ∀ v, vv = some v → 0 ≤ v.adjustedConfidence)
    (h : fallbackResultOf s vv = some r) :
    0 ≤ r.confidence ∧ r.confidence ≤ 1 := by
  unfold fallbackResultOf at h
  rcases vv with - | v
  · rcases h with ⟨⟩
    constructor
    · exact le_min (mul_nonneg hs (by norm_num)) (by norm_num)
    · exact le_trans (min_le_right _ _) (by norm_num)
  · dsimp only at h
    by_cases hval : v.isValid
    · rw [if_neg (by simp [hval])] at h
      rcases h with ⟨⟩
      constructor
      · exact le_min (hv v rfl) (by norm_num)
      · exact le_trans (min_le_right _ _) (by norm_num)
    · rw [if_pos (by simp [hval])] at h
      cases h

lemma filterMap_tcode_sublist (vs : List ValidationResult) :
    ∀ ss : List GeneratedTCode,
      ((ss.filterMap (fun s => fallbackResultOf s
          (vs.find? (fun v => upperS v.tcode == upperS s.tcode)))).map
        (fun r => lowerS r.tcode)).Sublist
      (ss.map (fun s => lowerS (upperS s.tcode))) := by
  intro ss
  induction ss with
  | nil => exact List.Sublist.refl _
  | cons s rest ih =>
    rw [List.filterMap_cons]
    rcases hf : fallbackResultOf s
        (vs.find? (fun v => upperS v.tcode == upperS s.tcode)) with - | r
    · exact List.Sublist.cons _ ih
    · rw [List.map_cons, List.map_cons, fallbackResultOf_tcode hf]
      exact List.Sublist.cons₂ _ ih

lemma fallback_inv (k : Bool) (ss : List GeneratedTCode) (vs : List ValidationResult)
    (limit : ℕ) (hs : ∀ s ∈ ss, 0 ≤ s.confidence)
    (hv : ∀ v ∈ vs, 0 ≤ v.adjustedConfidence)
    (hnd : (ss.map (fun s => lowerS (upperS s.tcode))).Nodup) :
    (∀ r ∈ generateAIFallbackSuggestions k ss vs limit,
        0 ≤ r.confidence ∧ r.confidence ≤ 1)
    ∧ ((generateAIFallbackSuggestions k ss vs limit).map (fun r => lowerS r.tcode)).Nodup := by
  unfold generateAIFallbackSuggestions
  split
  · exact ⟨fun r hr => absurd hr (List.not_mem_nil r), by simp⟩
  · split
    · exact ⟨fun r hr => absurd hr (List.not_mem_nil r), by simp⟩
    · dsimp only
      constructor
      · intro r hr
        have hr2 : r ∈ sortByConfDesc (ss.filterMap (fun s => fallbackResultOf s
            (vs.find? (fun v => upperS v.tcode == upperS s.tcode)))) :=
          List.mem_of_mem_take hr
        have hr3 := (List.perm_insertionSort confGe _).mem_iff.mp hr2
        rcases List.mem_filterMap.mp hr3 with ⟨s, hsm, hfo⟩
        refine fallbackResultOf_conf (hs s hsm) (fun v hfind => ?_) hfo
        exact hv v (List.mem_of_find?_eq_some hfind)
      · have hnd2 : ((ss.filterMap (fun s => fallbackResultOf s
            (vs.find? (fun v => upperS v.tcode == upperS s.tcode)))).map
            (fun r => lowerS r.tcode)).Nodup :=
          List.Nodup.sublist (filterMap_tcode_sublist vs ss) hnd
        have hnd3 : ((sortByConfDesc (ss.filterMap (fun s => fallbackResultOf s
            (vs.find? (fun v => upperS v.tcode == upperS s.tcode))))).map
            (fun r => lowerS r.tcode)).Nodup :=
          (((List.perm_insertionSort confGe _).map
            (fun r => lowerS r.tcode)).nodup_iff).mpr hnd2
        refine List.Nodup.sublist ?_ hnd3
        exact (List.take_sublist limit _).map _

lemma pipeline_tail_inv {catalog : List CatalogEntry} {boostOf : Str → ℚ}
    (md : List MolgaEntry) (je : Bool) {judge : Option (List JudgeVerdict)}
    (web : Str) {g : GptOutcome} {cands : List SearchResult} (q : Str)
    (hndcat : (catalog.map (fun e => lowerS e.tcode)).Nodup)
    (hg : ∀ items, g = some (some items) →
      ∀ it ∈ items, ∀ c, it.confidence = some c → 0 ≤ c ∧ c ≤ 1)
    (hj : ∀ js, judge = some js →
      ∀ v ∈ js, ∀ c, v.correctedConfidence = some c → 0 ≤ c ∧ c ≤ 1)
    (hbo : ∀ t, 0 ≤ boostOf t)
    (hcand : candInv catalog cands) :
    aiInv catalog (sortByConfDesc (applyFeedbackBoostToAI boostOf (sortByConfDesc
      ((applyMolgaBoostAI md (if (enhanceWithWebSearch catalog web (sortByConfDesc
        (validateSearchResults je (sortByConfDesc (applyTermBoost q
          (rerankWithGPT cands g))) judge)) webFallbackThreshold).2
        then sortByConfDesc (enhanceWithWebSearch catalog web (sortByConfDesc
          (validateSearchResults je (sortByConfDesc (applyTermBoost q
            (rerankWithGPT cands g))) judge)) webFallbackThreshold).1
        else (enhanceWithWebSearch catalog web (sortByConfDesc
          (validateSearchResults je (sortByConfDesc (applyTermBoost q
            (rerankWithGPT cands g))) judge)) webFallbackThreshold).1) q).1)))) :=
  aiInv_sort (feedback_inv hbo (aiInv_sort (molga_inv md q
    (results5_inv hndcat (aiInv_sort (judge_inv je judge hj
      (aiInv_sort (termboost_inv q (rerank_inv g hg hcand)))))))))

/-- Claim C1 (amended): the pipeline itself never deduplicates or clamps —
the invariants hold only when every external collaborator supplies
in-range values.  For a non-cached call over a catalog without
case-insensitive duplicate identifiers, with semantic rows drawn from the
catalog, GPT re-rank confidences in [0,1], judge corrected confidences in
[0,1], nonnegative feedback factors, nonnegative fallback confidences and
fallback suggestions without case-insensitive duplicate identifiers,
every returned result list has all confidences in [0,1] and no two
entries sharing a case-insensitively equal identifier.  (The returned
records carry no relevanceScore field; confidence is the only score.) -/
theorem C1_result_invariants_amended :
    ∀ (env : PipelineEnv) (q : Str) (limit : ℕ),
      env.cacheHit = none →
      (env.catalog.map (fun e => lowerS e.tcode)).Nodup →
      (∀ row ∈ env.directRows, row.entry ∈ env.catalog) →
      (∀ row ∈ env.expandedRows, row.entry ∈ env.catalog) →
      (∀ items, env.gpt = some (some items) →
        ∀ it ∈ items, ∀ c, it.confidence = some c → 0 ≤ c ∧ c ≤ 1) →
      (∀ js, env.judge = some js →
        ∀ v ∈ js, ∀ c, v.correctedConfidence = some c → 0 ≤ c ∧ c ≤ 1) →
      (∀ t, 0 ≤ env.boostOf t) →
      (∀ s ∈ env.fallbackSuggestions, 0 ≤ s.confidence) →
      (∀ v ∈ env.fallbackValidations, 0 ≤ v.adjustedConfidence) →
      (env.fallbackSuggestions.map (fun s => lowerS (upperS s.tcode))).Nodup →
      ∀ rs wb, executeAISearch env q limit = .ok (rs, wb) →
        (∀ r ∈ rs, 0 ≤ r.confidence ∧ r.confidence ≤ 1)
        ∧ (rs.map (fun r => lowerS r.tcode)).Nodup := by
  intro env q limit hcache hndcat hdr her hg hj hbo hfs hfv hfnd rs wb h
  unfold executeAISearch at h
  rw [hcache] at h
  split at h
  · exact absurd h (by simp)
  · dsimp only at h
    split at h
    · split at h
      · rcases h with ⟨⟩
        exact fallback_inv _ _ _ _ hfs hfv hfnd
      · rcases h with ⟨⟩
        have hcand := cand_inv_take hndcat (semantic_dom env.openaiKey limit her)
          (semantic_dom env.openaiKey limit hdr) (limit * 2)
        have H := pipeline_tail_inv env.molgaData env.judgeEnabled env.webContent
          q hndcat hg hj hbo hcand
        exact ⟨H.1, H.2.1⟩
    · split at h
      · rcases h with ⟨⟩
        exact fallback_inv _ _ _ _ hfs hfv hfnd
      · rcases h with ⟨⟩
        have hE : ∀ r ∈ ([] : List SearchResult),
            (0 ≤ r.relevanceScore ∧ r.relevanceScore ≤ 1)
              ∧ ∃ e ∈ env.catalog, r.tcode = e.tcode :=
          fun r hr => absurd hr (List.not_mem_nil r)
        have hcand := cand_inv_take hndcat hE
          (semantic_dom env.openaiKey limit hdr) (limit * 2)
        have H := pipeline_tail_inv env.molgaData env.judgeEnabled env.webContent
          q hndcat hg hj hbo hcand
        exact ⟨H.1, H.2.1⟩

def c1Entry : CatalogEntry := { tcode := "FB50".data }

def c1Verdict : JudgeVerdict := { tcode := "FB50".data, correctedConfidence := some 2 }

/-- An environment whose judge sends back an out-of-range corrected
confidence. -/
def c1Env : PipelineEnv :=
  { openaiKey := true, catalog := [c1Entry],
    directRows := [{ entry := c1Entry, similarity := 1/2 }],
    judge := some [c1Verdict] }

/-- The same environment with the judge disabled by absence. -/
def c1Good : PipelineEnv :=
  { openaiKey := true, catalog := [c1Entry],
    directRows := [{ entry := c1Entry, similarity := 1/2 }] }

/-- The list `c1Good` returns for the query `post`. -/
def c1GoodOut : List AISearchResult :=
  [{ tcode := "FB50".data, explanation := defaultSimilarityExplanation,
     confidence := 1/2 }]

theorem C1_result_invariants_witness :
    (∀ r ∈ c1GoodOut, 0 ≤ r.confidence ∧ r.confidence ≤ 1)
    ∧ (c1GoodOut.map (fun r => lowerS r.tcode)).Nodup :=
  C1_result_invariants_amended c1Good ("post".data) 5 rfl (by decide) (by decide)
    (by decide)
    (fun items hitems => Option.noConfusion hitems)
    (fun js hjs => Option.noConfusion hjs)
    (fun t => by show (0:ℚ) ≤ 1; norm_num)
    (by decide) (by decide) (by decide)
    c1GoodOut false rfl

/-- Counterexample to C1 as stated: confidences are *not* always clamped
to [0,1] — a judge verdict carrying `correctedConfidence = 2` is applied
verbatim after the term-boost cap, so the pipeline returns a result with
confidence 2. -/
theorem C1_counterexample_judge_confidence_unclamped :
    (executeAISearch c1Env "post".data 5).toOption.map
      (fun p => p.1.map (fun r => r.confidence)) = some [2]
    ∧ ¬((2:ℚ) ≤ 1) := by
  decide

/- ## C2: unconfigured reasoning model -/

/-- Claim C2 (amended): an unconfigured reasoning-model key is *not*
treated as a disabled feature — `executeAISearch` throws
`OpenAI API key not configured`, which the route surfaces as an explicit
500 error response (so no raw exception escapes, but the result is an
error, not an empty list).  With the key configured, a query with no
catalog matches and every other external service disabled or empty yields
an empty result list, not an error. -/
theorem C2_unconfigured_key_amended :
    (∀ (env : PipelineEnv) (q : Str) (limit : ℕ), env.openaiKey = false →
        executeAISearch env q limit = .error apiKeyErrorText
        ∧ postSearchAI env q limit = .serverError apiKeyErrorText)
    ∧ (∀ (env : PipelineEnv) (q : Str) (limit : ℕ),
        env.openaiKey = true → env.cacheHit = none →
        env.directRows = [] → env.expandedRows = [] → env.fallbackSuggestions = [] →
        executeAISearch env q limit = .ok ([], false))
    ∧ (∀ (env : PipelineEnv) (q : Str) (limit : ℕ),
        (∃ rs c, postSearchAI env q limit = .ok rs c)
        ∨ ∃ e, postSearchAI env q limit = .serverError e) := by
  refine ⟨fun env q limit hk => ?_, fun env q limit hk hc hd hx hf => ?_,
    fun env q limit => ?_⟩
  · have h1 : executeAISearch env q limit = .error apiKeyErrorText := by
      unfold executeAISearch
      rw [hk]
      rfl
    exact ⟨h1, by unfold postSearchAI; rw [h1]⟩
  · unfold executeAISearch
    rw [hk, hc, hd, hx, hf]
    have hdir : executeSemanticSearch true [] limit = [] := by
      simp [executeSemanticSearch]
    by_cases he : env.expandedQuery ≠ q
    · rw [if_pos he, hdir]
      simp [fuseCandidates, fillSlots, setSlots, mapValues, generateAIFallbackSuggestions]
    · rw [if_neg he, hdir]
      simp [fuseCandidates, fillSlots, setSlots, mapValues, generateAIFallbackSuggestions]
  · unfold postSearchAI
    rcases executeAISearch env q limit with e | ⟨rs, c⟩
    · exact Or.inr ⟨e, rfl⟩
    · exact Or.inl ⟨rs, c, rfl⟩

/-- Environment with the reasoning model unconfigured. -/
def c2EnvNoKey : PipelineEnv := { openaiKey := false }

/-- Environment with the key configured but every external collaborator
disabled or answering empty. -/
def c2EnvBare : PipelineEnv := { openaiKey := true, expandedQuery := "employee list".data }

/-- Witness for C2 at concrete inputs: the bare environment yields an
empty list without an error, and the missing key yields the explicit
error. -/
theorem C2_unconfigured_key_witness :
    executeAISearch c2EnvBare ("employee list".data) 5 = .ok ([], false)
    ∧ postSearchAI c2EnvNoKey ("employee list".data) 5 = .serverError apiKeyErrorText :=
  ⟨C2_unconfigured_key_amended.2.1 c2EnvBare ("employee list".data) 5 rfl rfl rfl rfl rfl,
   (C2_unconfigured_key_amended.1 c2EnvNoKey ("employee list".data) 5 rfl).2⟩

/-- Counterexample for C2 as stated: with the reasoning model unconfigured
and a query with no catalog matches, `executeAISearch` does not return an
empty result list — it throws, and the route answers with a 500 error. -/
theorem C2_counterexample_key_missing_is_error :
    executeAISearch c2EnvNoKey ("employee list".data) 5 = .error apiKeyErrorText
    ∧ executeAISearch c2EnvNoKey ("employee list".data) 5 ≠ .ok ([], false)
    ∧ postSearchAI c2EnvNoKey ("employee list".data) 5 = .serverError apiKeyErrorText := by
  have h1 : executeAISearch c2EnvNoKey ("employee list".data) 5 = .error apiKeyErrorText := rfl
  refine ⟨h1, ?_, rfl⟩
  rw [h1]
  intro h
  cases h

/- ## C9: cache keys and cached-hit ordering -/

lemma sortByConfDesc_sorted (l : List AISearchResult) :
    List.Sorted confGe (sortByConfDesc l) :=
  List.sorted_insertionSort confGe l

lemma sortByConfDesc_eq_of_sorted {l : List AISearchResult} (h : List.Sorted confGe l) :
    sortByConfDesc l = l :=
  h.insertionSort_eq

lemma sorted_take {l : List AISearchResult} (h : List.Sorted confGe l) (n : ℕ) :
    List.Sorted confGe (l.take n) :=
  List.Pairwise.sublist (List.take_sublist n l) h

lemma fallback_sorted (k : Bool) (s : List GeneratedTCode) (v : List ValidationResult)
    (lim : ℕ) : List.Sorted confGe (generateAIFallbackSuggestions k s v lim) := by
  unfold generateAIFallbackSuggestions
  split
  · exact List.sorted_nil
  · split
    · exact List.sorted_nil
    · exact sorted_take (sortByConfDesc_sorted _) _

/-- Every successful `executeAISearch` outcome is sorted by confidence
descending: each branch ends in a sort, a sorted cache replay, or a sorted
truncation. -/
lemma executeAISearch_ok_sorted {env : PipelineEnv} {q : Str} {limit : ℕ}
    {rs : List AISearchResult} {b : Bool}
    (h : executeAISearch env q limit = .ok (rs, b)) : List.Sorted confGe rs := by
  unfold executeAISearch at h
  split at h
  · exact absurd h (by simp)
  · split at h
    · rcases h with ⟨⟩
      exact sortByConfDesc_sorted _
    · split at h
      all_goals dsimp only at h
      all_goals split at h
      all_goals rcases h with ⟨⟩
      all_goals first
        | exact fallback_sorted _ _ _ _
        | exact sortByConfDesc_sorted _

/-- Claim C9: for every namespace, two queries map to the same cache key
iff they agree after lower-casing, trimming and collapsing internal
whitespace; and a repeated identical search served from the cache returns
`cached = true` with exactly the stored (originally returned) ordering —
every originally returned list being sorted, the hit branch's re-sort is
the identity on it. -/
theorem C9_cache_key_normalization_and_cached_replay :
    (∀ ns q1 q2 : Str,
        generateCacheKey ns q1 = generateCacheKey ns q2
          ↔ normalizeQuery q1 = normalizeQuery q2)
    ∧ (∀ (env : PipelineEnv) (q : Str) (limit : ℕ) (stored : List AISearchResult),
        env.openaiKey = true → env.cacheHit = some stored → List.Sorted confGe stored →
        executeAISearch env q limit = .ok (stored, true))
    ∧ (∀ (env : PipelineEnv) (q : Str) (limit : ℕ) (rs : List AISearchResult) (b : Bool),
        executeAISearch env q limit = .ok (rs, b) → List.Sorted confGe rs) := by
  refine ⟨fun ns q1 q2 => ⟨fun h => ?_, fun h => ?_⟩,
    fun env q limit stored hk hc hs => ?_, fun env q limit rs b h => ?_⟩
  · unfold generateCacheKey at h
    have h2 := List.append_cancel_left h
    exact (List.cons.injEq _ _ _ _).mp h2 |>.2
  · unfold generateCacheKey
    rw [h]
  · unfold executeAISearch
    rw [hk, hc]
    simp only [Bool.not_true, Bool.false_eq_true, if_false]
    rw [sortByConfDesc_eq_of_sorted hs]
  · exact executeAISearch_ok_sorted h

/-- Concrete stored result list for the C9 witness. -/
def c9Stored : AISearchResult :=
  { tcode := "ME21N".data, explanation := "cached".data, confidence := 0.9 }

/-- Concrete environment for the C9 witness: a cache hit. -/
def c9Env : PipelineEnv := { openaiKey := true, cacheHit := some [c9Stored] }

/-- Witness for C9 at concrete inputs: a repeat of a cached query returns
`cached = true` with the stored singleton list unchanged. -/
theorem C9_cache_witness :
    executeAISearch c9Env ("me21n".data) 5 = .ok ([c9Stored], true) :=
  C9_cache_key_normalization_and_cached_replay.2.1 c9Env ("me21n".data) 5 [c9Stored]
    (by rfl) (by rfl) (List.sorted_singleton _)

end TCode
